import Mathlib

/-!
Verification of the TutUni document ingestion and retrieval pipeline.

This file gives a shallow embedding in Lean 4 of the parts of the backend
that the verified properties talk about:

* `app/services/text_chunker.py` — the text segmenter (`TextChunker`),
  embedded character-for-character over `List Char`;
* `app/services/background_processor.py` — the ingestion pipeline
  (`BackgroundProcessor`), embedded as a state-passing function over an
  explicit system state, with external collaborators (text extraction,
  semantic analysis, the embedding model) modelled as oracles;
* `app/models/document.py` — the `Document` record and its helpers;
* `app/services/vector_service.py` — the per-project vector index,
  modelled as an in-memory association of project ids to entry lists;
* `app/services/ai_service.py` — the retrieval assembler
  (`retrieve_context`), with distances as rationals.

Python strings are modelled as `List Char`; the regular expressions used
by the chunker are each implemented directly as character-level matchers
with the same semantics on the inputs that reach them (the texts involved
never contain a newline after whitespace collapsing, which is noted where
it matters).  Database sessions are an excluded collaborator and are
modelled as succeeding; the unbound name `get_db` in
`reprocess_document` (a `NameError` at call time: the module only imports
`get_async_session`) is modelled explicitly.
-/

namespace TutUni

/-- Python strings, modelled as lists of characters. -/
abbrev Str := List Char

/-! ### Character classes (Python `re`, on the ASCII texts that occur here) -/

/-- Python regex `\s` / `str.strip()` whitespace (ASCII part). -/
def isPySpace (c : Char) : Bool :=
  c == ' ' || c == '\t' || c == '\n' || c == '\r' || c == '\x0b' || c == '\x0c'

/-- Regex class `[0-9]` (= `\d` on the ASCII inputs). -/
def isDigitA (c : Char) : Bool := '0' ≤ c && c ≤ '9'

/-- Regex class `[A-Z]`. -/
def isUpperA (c : Char) : Bool := 'A' ≤ c && c ≤ 'Z'

/-- Regex class `[a-z]`. -/
def isLowerA (c : Char) : Bool := 'a' ≤ c && c ≤ 'z'

/-- Sentence-boundary punctuation, the regex class `[.!?]`. -/
def isPunctSB (c : Char) : Bool := c == '.' || c == '!' || c == '?'

/-- Drop leading whitespace (Python `lstrip`). -/
def dropWhileWs (l : Str) : Str := l.dropWhile isPySpace

/-- Drop trailing whitespace (Python `rstrip`). -/
def stripTrailingWs (l : Str) : Str := (l.reverse.dropWhile isPySpace).reverse

/-- Python `str.strip()`. -/
def pyStrip (l : Str) : Str := stripTrailingWs (dropWhileWs l)

/-- Python `text[-n:]`: the trailing `n` characters. -/
def takeLast (n : Nat) (l : Str) : Str := l.drop (l.length - n)

/-- Helper for `countWords`: the flag says whether we are inside a word. -/
def countWordsGo : Str → Bool → Nat
  | [], _ => 0
  | c :: cs, inWord =>
    if isPySpace c then countWordsGo cs false
    else (if inWord then 0 else 1) + countWordsGo cs true

/-- Python `len(text.split())`: the number of maximal non-whitespace runs. -/
def countWords (l : Str) : Nat := countWordsGo l false

/-! ### `TextChunker._preprocess_text` -/

/-- Implements `re.sub(r'\s+', ' ', text)`: every maximal whitespace run
becomes a single space (emitted at the end of the run). -/
def collapseWs : Str → Str
  | [] => []
  | [c] => if isPySpace c then [' '] else [c]
  | c :: d :: ds =>
    if isPySpace c then
      (if isPySpace d then collapseWs (d :: ds) else ' ' :: collapseWs (d :: ds))
    else c :: collapseWs (d :: ds)

/-- Index (from the right) bookkeeping for the `\n\s*\n` matcher: given the
text right after an initial `'\n'`, complete the match by consuming the
longest whitespace prefix that ends with `'\n'` (regex `\s*` is greedy and
backtracks to leave a final `'\n'`).  Returns the rest of the text after
the match, or `none` if the pattern cannot complete here. -/
def nlMatchTail (cs : Str) : Option Str :=
  let run := cs.takeWhile isPySpace
  match run.reverse.findIdx? (· == '\n') with
  | none => none
  | some j => some (cs.drop (run.length - j))

/-- Fueled scanner for `re.sub(r'\n\s*\n', '\n\n', text)`; the fuel is an
upper bound on the text length (each step consumes at least one
character). -/
def subNlNlGo : Nat → Str → Str
  | _, [] => []
  | 0, l => l
  | fuel + 1, c :: cs =>
    if c == '\n' then
      match nlMatchTail cs with
      | some rest => '\n' :: '\n' :: subNlNlGo fuel rest
      | none => c :: subNlNlGo fuel cs
    else c :: subNlNlGo fuel cs

/-- Implements `re.sub(r'\n\s*\n', '\n\n', text)`. -/
def subNlNl (l : Str) : Str := subNlNlGo l.length l

/-- Split a text into its `'\n'`-separated lines (accumulator reversed). -/
def splitLinesGo : Str → Str → List Str
  | [], cur => [cur.reverse]
  | c :: cs, cur =>
    if c == '\n' then cur.reverse :: splitLinesGo cs [] else splitLinesGo cs (c :: cur)

/-- The `'\n'`-separated lines of a text. -/
def splitLines (l : Str) : List Str := splitLinesGo l []

/-- Whether a line matches `^\d+\s*$`: one or more digits followed by
optional whitespace up to the end of the line. -/
def isNumericLine (l : Str) : Bool :=
  let ds := l.takeWhile isDigitA
  ds ≠ [] && (l.drop ds.length).all isPySpace

/-- Rejoin lines with `'\n'`. -/
def joinLines : List Str → Str
  | [] => []
  | [l] => l
  | l :: ls => l ++ '\n' :: joinLines ls

/-- Implements `re.sub(r'^\d+\s*$', '', text, flags=re.MULTILINE)`: each
line that is only digits (plus trailing whitespace) is replaced by an
empty line.  (The texts this runs on contain no `'\n'` after whitespace
collapsing, so the line decomposition is exact for them.) -/
def removeNumericLines (l : Str) : Str :=
  joinLines ((splitLines l).map (fun line => if isNumericLine line then [] else line))

/-- Helper for `subDots`: `n` is the number of `'.'` seen in the current
run; a run of `n ≥ 3` dots is emitted as exactly three. -/
def emitDots (n : Nat) : Str := List.replicate (min n 3) '.'

/-- Fold for `re.sub(r'[.]{3,}', '...', text)`. -/
def subDotsGo : Str → Nat → Str
  | [], n => emitDots n
  | c :: cs, n =>
    if c == '.' then subDotsGo cs (n + 1)
    else emitDots n ++ c :: subDotsGo cs 0

/-- Implements `re.sub(r'[.]{3,}', '...', text)`. -/
def subDots (l : Str) : Str := subDotsGo l 0

/-- `TextChunker._preprocess_text`: collapse whitespace, normalize double
newlines, strip numeric-only lines, cap dot runs, and strip the ends. -/
def preprocessText (l : Str) : Str :=
  pyStrip (subDots (removeNumericLines (subNlNl (collapseWs l))))

/-! ### `TextChunker._split_into_paragraphs` -/

/-- Fueled scanner for `re.split(r'\n\s*\n', text)` (same match logic as
`subNlNl`, collecting the fragments between matches). -/
def splitParasGo : Nat → Str → Str → List Str
  | _, [], cur => [cur.reverse]
  | 0, l, cur => [cur.reverse ++ l]
  | fuel + 1, c :: cs, cur =>
    if c == '\n' then
      match nlMatchTail cs with
      | some rest => cur.reverse :: splitParasGo fuel rest []
      | none => splitParasGo fuel cs (c :: cur)
    else splitParasGo fuel cs (c :: cur)

/-- Implements `re.split(r'\n\s*\n', text)`. -/
def splitParasRaw (l : Str) : List Str := splitParasGo l.length l []

/-- `TextChunker._split_into_paragraphs`: split on blank-line boundaries,
strip each piece, and keep it only when non-empty and longer than 20
characters. -/
def splitIntoParagraphs (l : Str) : List Str :=
  (splitParasRaw l).filterMap (fun para =>
    let p := pyStrip para
    if p ≠ [] && 20 < p.length then some p else none)

/-! ### `TextChunker._detect_chunk_type` pattern matchers -/

/-- Chunk classification tags (`ChunkType` in the source). -/
inductive ChunkType where
  | TITLE | PARAGRAPH | LIST_ITEM | QUOTE | FOOTNOTE
deriving DecidableEq, Repr

/-- Matches `^[A-Z][A-Z\s]+$` (the texts reaching this contain no `'\n'`,
so `$` is end-of-string). -/
def matchAllCaps : Str → Bool
  | [] => false
  | c :: cs => isUpperA c && cs ≠ [] && cs.all (fun d => isUpperA d || isPySpace d)

/-- Matches `^\d+\.\s+[A-Z]` as a prefix of the text. -/
def matchNumberedSection (l : Str) : Bool :=
  let ds := l.takeWhile isDigitA
  ds ≠ [] &&
    (match l.drop ds.length with
     | '.' :: r2 =>
       let ws := r2.takeWhile isPySpace
       ws ≠ [] &&
         (match r2.drop ws.length with
          | c :: _ => isUpperA c
          | [] => false)
     | _ => false)

/-- Consume one `[A-Z][a-z]+` word, returning the rest of the text. -/
def titleWord : Str → Option Str
  | [] => none
  | c :: cs =>
    if isUpperA c then
      let ls := cs.takeWhile isLowerA
      if ls ≠ [] then some (cs.drop ls.length) else none
    else none

/-- Fueled matcher for the `(?:\s+[A-Z][a-z]+)*$` tail of the Title Case
pattern (each iteration consumes at least two characters). -/
def titleCaseTail : Nat → Str → Bool
  | _, [] => true
  | 0, _ => false
  | fuel + 1, l =>
    let ws := l.takeWhile isPySpace
    if ws.isEmpty then false
    else
      match titleWord (l.drop ws.length) with
      | some rest => titleCaseTail fuel rest
      | none => false

/-- Matches `^[A-Z][a-z]+(?:\s+[A-Z][a-z]+)*$`. -/
def matchTitleCase (l : Str) : Bool :=
  match titleWord l with
  | some rest => titleCaseTail rest.length rest
  | none => false

/-- Matches `^W\s+\d` as a prefix, for a literal word `W` (used for the
`Capitolo|Sezione|Parte` and `Chapter|Section|Part` alternations; `\d+`
needs only its first digit to witness a prefix match). -/
def matchWordNumber (w : Str) (l : Str) : Bool :=
  w.isPrefixOf l &&
    (let r := l.drop w.length
     let ws := r.takeWhile isPySpace
     ws ≠ [] &&
       (match r.drop ws.length with
        | c :: _ => isDigitA c
        | [] => false))

/-- Matches `^(?:Capitolo|Sezione|Parte)\s+\d+`. -/
def matchChapterIt (l : Str) : Bool :=
  matchWordNumber (("Capitolo").toList) l || matchWordNumber (("Sezione").toList) l ||
    matchWordNumber (("Parte").toList) l

/-- Matches `^(?:Chapter|Section|Part)\s+\d+`. -/
def matchChapterEn (l : Str) : Bool :=
  matchWordNumber (("Chapter").toList) l || matchWordNumber (("Section").toList) l ||
    matchWordNumber (("Part").toList) l

/-- Matches `^\s*[-•*]\s+` (bullet list marker). -/
def matchBullet (l : Str) : Bool :=
  let r := l.drop (l.takeWhile isPySpace).length
  match r with
  | c :: d :: _ => (c == '-' || c == Char.ofNat 0x2022 || c == '*') && isPySpace d
  | _ => false

/-- Matches `^\s*\d+\.\s+` (numbered list marker). -/
def matchNumberedList (l : Str) : Bool :=
  let r := l.drop (l.takeWhile isPySpace).length
  let ds := r.takeWhile isDigitA
  ds ≠ [] &&
    (match r.drop ds.length with
     | '.' :: d :: _ => isPySpace d
     | _ => false)

/-- Matches `^\s*[a-z]\)\s+` (lettered list marker). -/
def matchLettered (l : Str) : Bool :=
  let r := l.drop (l.takeWhile isPySpace).length
  match r with
  | c :: ')' :: d :: _ => isLowerA c && isPySpace d
  | _ => false

/-- Matches `^\s*[IVX]+\.\s+` (roman-numeral list marker). -/
def matchRoman (l : Str) : Bool :=
  let r := l.drop (l.takeWhile isPySpace).length
  let rn := r.takeWhile (fun c => c == 'I' || c == 'V' || c == 'X')
  rn ≠ [] &&
    (match r.drop rn.length with
     | '.' :: d :: _ => isPySpace d
     | _ => false)

/-- Matches `^q₁.*q₂$` for quote characters `q₁ q₂` (regex `.` does not
match `'\n'`). -/
def matchQuoted (q1 q2 : Char) (l : Str) : Bool :=
  match l with
  | c :: cs => c == q1 && cs ≠ [] && cs.getLast? == some q2 && cs.dropLast.all (· ≠ '\n')
  | [] => false

/-- Matches `^\d+\s+` (numbered footnote marker). -/
def matchNumFootnote (l : Str) : Bool :=
  let ds := l.takeWhile isDigitA
  ds ≠ [] &&
    (match l.drop ds.length with
     | c :: _ => isPySpace c
     | [] => false)

/-- Matches `^\*\s+` (asterisk footnote marker). -/
def matchAsteriskFootnote (l : Str) : Bool :=
  match l with
  | '*' :: c :: _ => isPySpace c
  | _ => false

/-- `TextChunker._detect_chunk_type`: the ordered, first-match-wins pattern
table.  The third quote pattern in the source is byte-identical to the
first (`r'^".*"$'` twice), so it adds nothing. -/
def detectChunkType (text : Str) : ChunkType :=
  let s := pyStrip text
  if matchAllCaps s || matchNumberedSection s || matchTitleCase s ||
      matchChapterIt s || matchChapterEn s then ChunkType.TITLE
  else if matchBullet s || matchNumberedList s || matchLettered s || matchRoman s then
    ChunkType.LIST_ITEM
  else if matchQuoted '"' '"' s || matchQuoted (Char.ofNat 0xAB) (Char.ofNat 0xBB) s ||
      matchQuoted '"' '"' s then ChunkType.QUOTE
  else if matchNumFootnote s || matchAsteriskFootnote s then ChunkType.FOOTNOTE
  else ChunkType.PARAGRAPH

/-! ### `TextChunker._split_into_sentences` -/

/-- Fueled scanner for `re.split(r'[.!?]+\s+', text)`.  `cur` is the
current fragment, reversed.  On a sentence-boundary punctuation character
we take the maximal following punctuation run; if whitespace follows, the
whole `[.!?]+\s+` match is consumed and the fragment is emitted, otherwise
the punctuation run belongs to the fragment.  Each step consumes at least
one character, so fuel = text length suffices. -/
def sentSplitGo : Nat → Str → Str → List Str
  | _, [], cur => [cur.reverse]
  | 0, l, cur => [cur.reverse ++ l]
  | fuel + 1, c :: cs, cur =>
    if isPunctSB c then
      let ps := cs.takeWhile isPunctSB
      let rest1 := cs.drop ps.length
      let wsr := rest1.takeWhile isPySpace
      if wsr.isEmpty then sentSplitGo fuel rest1 (ps.reverse ++ c :: cur)
      else cur.reverse :: sentSplitGo fuel (rest1.drop wsr.length) []
    else sentSplitGo fuel cs (c :: cur)

/-- Implements `re.split(r'[.!?]+\s+', text)`. -/
def splitSentRaw (l : Str) : List Str := sentSplitGo l.length l []

/-- `TextChunker._split_into_sentences`: split on sentence boundaries,
strip each fragment, and keep the ones longer than 10 characters. -/
def splitIntoSentences (l : Str) : List Str :=
  (splitSentRaw l).filterMap (fun s =>
    let s := pyStrip s
    if s ≠ [] && 10 < s.length then some s else none)

/-! ### Chunk records -/

/-- The metadata mapping attached to a chunk.  `documentId`, `filename`
and `paragraphIndex` are set at construction; `wordCount`, `charCount` and
`chunkTypeTag` are (re)computed by `TextChunk.__post_init__` on every
construction; the `final*` fields are added by
`_validate_and_cleanup_chunks`. -/
structure ChunkMeta where
  documentId : Nat
  filename : Str
  paragraphIndex : Nat
  wordCount : Nat
  charCount : Nat
  chunkTypeTag : ChunkType
  finalWordCount : Option Nat
  finalCharCount : Option Nat
deriving DecidableEq, Repr

/-- `TextChunk` from the source. -/
structure TextChunk where
  text : Str
  chunkType : ChunkType
  startPos : Nat
  endPos : Nat
  metadata : ChunkMeta
deriving DecidableEq, Repr

/-- The `metadata.update` performed by `TextChunk.__post_init__`. -/
def refreshMeta (m : ChunkMeta) (text : Str) (ty : ChunkType) : ChunkMeta :=
  { m with wordCount := countWords text, charCount := text.length, chunkTypeTag := ty }

/-- Construct a `TextChunk` with the base metadata dict
`{document_id, filename, paragraph_index}` (as in
`_create_chunks_from_paragraph`), then apply `__post_init__`. -/
def mkChunk (text : Str) (ty : ChunkType) (startPos endPos : Nat)
    (docId : Nat) (filename : Str) (paraIdx : Nat) : TextChunk :=
  { text := text, chunkType := ty, startPos := startPos, endPos := endPos,
    metadata := refreshMeta
      { documentId := docId, filename := filename, paragraphIndex := paraIdx,
        wordCount := 0, charCount := 0, chunkTypeTag := ty,
        finalWordCount := none, finalCharCount := none } text ty }

/-- Chunker configuration (constructor arguments of `TextChunker`). -/
structure ChunkerConfig where
  chunkSize : Nat
  overlapSize : Nat
  minChunkSize : Nat
  maxChunkSize : Nat

/-- The module-level singleton `text_chunker = TextChunker()`. -/
def defaultConfig : ChunkerConfig :=
  { chunkSize := 1000, overlapSize := 200, minChunkSize := 100, maxChunkSize := 2000 }

/-! ### `TextChunker._create_chunks_from_paragraph` -/

/-- The sentence-accumulation loop of `_create_chunks_from_paragraph`:
greedily extend `cur` with sentences; when adding the next sentence would
push past `chunk_size` (and `cur` is non-empty), emit `cur` as a chunk and
restart from that sentence.  A trailing accumulation is emitted only when
its stripped length reaches `min_chunk_size`. -/
def accumulateSentences (cfg : ChunkerConfig) (docId : Nat) (filename : Str)
    (ty : ChunkType) : List Str → Str → Nat → List TextChunk → List TextChunk
  | [], cur, curStart, acc =>
    if cur ≠ [] && cfg.minChunkSize ≤ (pyStrip cur).length then
      acc ++ [mkChunk (pyStrip cur) ty curStart (curStart + cur.length) docId filename
        acc.length]
    else acc
  | s :: ss, cur, curStart, acc =>
    if cfg.chunkSize < cur.length + s.length && cur ≠ [] then
      let c := mkChunk (pyStrip cur) ty curStart (curStart + cur.length) docId filename
        acc.length
      accumulateSentences cfg docId filename ty ss s (curStart + c.text.length) (acc ++ [c])
    else
      accumulateSentences cfg docId filename ty ss
        (if cur.isEmpty then s else cur ++ ' ' :: s) curStart acc

/-- `TextChunker._create_chunks_from_paragraph`. -/
def createChunksFromParagraph (cfg : ChunkerConfig) (paragraph : Str) (startPos : Nat)
    (ty : ChunkType) (docId : Nat) (filename : Str) : List TextChunk :=
  if paragraph.length ≤ cfg.chunkSize then
    [mkChunk paragraph ty startPos (startPos + paragraph.length) docId filename 0]
  else
    accumulateSentences cfg docId filename ty (splitIntoSentences paragraph) [] startPos []

/-! ### Overlap -/

/-- Leftmost index of a `[.!?]\s` pair (start of a `re.search(r'[.!?]\s+')`
match). -/
def findPunctWs : Str → Option Nat
  | [] => none
  | [_] => none
  | a :: b :: rest =>
    if isPunctSB a && isPySpace b then some 0
    else (findPunctWs (b :: rest)).map (· + 1)

/-- `TextChunker._get_overlap_text`: the whole text when it fits in the
window, otherwise the trailing `overlap_size` characters trimmed forward
past the first sentence boundary found in the window (the `.end()` of the
`[.!?]\s+` match), or raw when no boundary exists. -/
def getOverlapText (text : Str) (overlapSize : Nat) : Str :=
  if text.length ≤ overlapSize then text
  else
    let w := takeLast overlapSize text
    match findPunctWs w with
    | some i =>
      let after := w.drop (i + 1)
      after.drop (after.takeWhile isPySpace).length
    | none => w

/-- The body applied by `_apply_overlap` to each consecutive pair
`(chunks[i-1], chunks[i])` of the pre-overlap chunk list. -/
def overlapPair (cfg : ChunkerConfig) (prev cur : TextChunk) : TextChunk :=
  let ot := getOverlapText prev.text cfg.overlapSize
  if ot ≠ [] then
    let newText := ot ++ ' ' :: cur.text
    { cur with text := newText, metadata := refreshMeta cur.metadata newText cur.chunkType }
  else cur

/-- `TextChunker._apply_overlap`: the first chunk is kept as is; every
later chunk is rebuilt against its predecessor in the input list. -/
def applyOverlap (cfg : ChunkerConfig) (chunks : List TextChunk) : List TextChunk :=
  if chunks.length ≤ 1 then chunks
  else
    match chunks with
    | [] => []
    | c0 :: rest => c0 :: (List.zip (c0 :: rest) rest).map (fun pc => overlapPair cfg pc.1 pc.2)

/-! ### Validation and the public entry point -/

/-- The per-chunk keep test of `_validate_and_cleanup_chunks`. -/
def keepChunk (cfg : ChunkerConfig) (c : TextChunk) : Bool :=
  !((pyStrip c.text).length < cfg.minChunkSize)

/-- The per-chunk rewrite of `_validate_and_cleanup_chunks`: truncate to
`max_chunk_size`, strip, and record the final counts. -/
def cleanupChunk (cfg : ChunkerConfig) (c : TextChunk) : TextChunk :=
  let t1 := if cfg.maxChunkSize < c.text.length then c.text.take cfg.maxChunkSize else c.text
  let t2 := pyStrip t1
  { c with
    text := t2,
    metadata := { c.metadata with
      finalWordCount := some (countWords t2), finalCharCount := some t2.length } }

/-- `TextChunker._validate_and_cleanup_chunks`. -/
def validateAndCleanupChunks (cfg : ChunkerConfig) : List TextChunk → List TextChunk
  | [] => []
  | c :: cs =>
    if keepChunk cfg c then cleanupChunk cfg c :: validateAndCleanupChunks cfg cs
    else validateAndCleanupChunks cfg cs

/-- The paragraph loop in `chunk_text` (lines 92–112): paragraphs whose
stripped length is below `min_chunk_size` are skipped (without advancing
the running position, exactly as the `continue` does); the rest are
classified and chunked.  Returns the chunk list and the final position. -/
def paragraphLoop (cfg : ChunkerConfig) (docId : Nat) (filename : Str) :
    List Str → List TextChunk × Nat → List TextChunk × Nat
  | [], acc => acc
  | p :: ps, acc =>
    if (pyStrip p).length < cfg.minChunkSize then paragraphLoop cfg docId filename ps acc
    else
      let ty := detectChunkType p
      paragraphLoop cfg docId filename ps
        (acc.1 ++ createChunksFromParagraph cfg p acc.2 ty docId filename, acc.2 + p.length)

/-- The pre-overlap chunk list computed inside `chunk_text` (the value of
`chunks` at line 114, before `_apply_overlap`). -/
def preOverlapChunks (cfg : ChunkerConfig) (text : Str) (docId : Nat) (filename : Str) :
    List TextChunk :=
  (paragraphLoop cfg docId filename (splitIntoParagraphs (preprocessText text)) ([], 0)).1

/-- The body of `chunk_text` inside its `try`.  Every stage of the
embedding is total, so the body always succeeds; the `Except` layer
records where the Python `try` sits. -/
def chunkTextBody (cfg : ChunkerConfig) (text : Str) (docId : Nat) (filename : Str) :
    Except Str (List TextChunk) :=
  Except.ok (validateAndCleanupChunks cfg
    (applyOverlap cfg (preOverlapChunks cfg text docId filename)))

/-- The `except Exception` handler of `chunk_text`: any internal error is
logged and turned into the empty list. -/
def handleChunkErrors : Except Str (List TextChunk) → List TextChunk
  | Except.ok cs => cs
  | Except.error _ => []

/-- `TextChunker.chunk_text`, the public entry point of the segmenter. -/
def chunkText (cfg : ChunkerConfig) (text : Str) (docId : Nat) (filename : Str) :
    List TextChunk :=
  handleChunkErrors (chunkTextBody cfg text docId filename)

/-! ### `app/models/document.py` -/

/-- `DocumentStatus`. -/
inductive DocumentStatus where
  | UPLOADING | UPLOADED | PROCESSING | PROCESSED | ANALYZED | ERROR
deriving DecidableEq, Repr

/-- The payload of a semantic-analysis result, modelling the
`analysis_result` dict: each optional field stands for the presence of
the corresponding key. -/
structure AnalysisData where
  centralThesis : Option Str
  keyConcepts : Option (List Str)
  argumentativeStructure : Option Str
  citedSources : Option Str
deriving DecidableEq, Repr

/-- The `Document` row (the columns the pipeline reads or writes). -/
structure Document where
  id : Nat
  filename : Str
  originalFilename : Str
  projectId : Nat
  status : DocumentStatus
  extractedText : Option Str
  pageCount : Option Nat
  isAnalyzed : Bool
  analysisResult : Option AnalysisData
  centralThesis : Option Str
  keyConcepts : Option (List Str)
  argumentativeStructure : Option Str
  citedSources : Option Str
  errorMessage : Option Str
  analyzedAt : Option Nat
deriving DecidableEq, Repr

/-- `Document.mark_as_analyzed`: sets `status = ANALYZED`, stamps
`analyzed_at`, stores the whole result, and copies each field that is
present in the result dict. -/
def markAsAnalyzed (d : Document) (a : AnalysisData) (now : Nat) : Document :=
  { d with
    status := DocumentStatus.ANALYZED,
    isAnalyzed := true,
    analyzedAt := some now,
    analysisResult := some a,
    centralThesis := match a.centralThesis with
      | some v => some v
      | none => d.centralThesis,
    keyConcepts := match a.keyConcepts with
      | some v => some v
      | none => d.keyConcepts,
    argumentativeStructure := match a.argumentativeStructure with
      | some v => some v
      | none => d.argumentativeStructure,
    citedSources := match a.citedSources with
      | some v => some v
      | none => d.citedSources }

/-! ### `app/services/vector_service.py` -/

/-- The metadata payload stored next to each embedding (the keys the
pipeline later filters or reads). -/
structure VectorMeta where
  documentId : Nat
  projectId : Nat
  chunkId : Nat
  filename : Str
  chunkTypeTag : ChunkType
  startPos : Nat
  endPos : Nat
deriving DecidableEq, Repr

/-- One entry of a project collection, keyed by the deterministic id
`doc_{document_id}_chunk_{i}`, which we model by its components. -/
structure VectorEntry where
  docIdKey : Nat
  chunkIdKey : Nat
  text : Str
  meta : VectorMeta
deriving DecidableEq, Repr

/-- The ChromaDB state: one collection (entry list) per project id. -/
abbrev VectorStore := List (Nat × List VectorEntry)

/-- `VectorService.get_or_create_collection`, on the store state: returns
the store (with the collection created when absent) and the collection's
entries. -/
def getOrCreateCollection (projectId : Nat) (s : VectorStore) : VectorStore × List VectorEntry :=
  match s.find? (fun pc => pc.1 == projectId) with
  | some pc => (s, pc.2)
  | none => (s ++ [(projectId, [])], [])

/-- Replace a project's collection in the store. -/
def setCollection (projectId : Nat) (entries : List VectorEntry) : VectorStore → VectorStore
  | [] => [(projectId, entries)]
  | pc :: rest =>
    if pc.1 == projectId then (projectId, entries) :: rest
    else pc :: setCollection projectId entries rest

/-- `VectorService.add_document_embeddings`.  Embedding generation and the
ChromaDB write are failure-prone collaborators; `addOk` says whether they
succeed this call.  Returns the success flag and the new store. -/
def addDocumentEmbeddings (addOk : Bool) (projectId documentId : Nat)
    (chunks : List Str) (metadatas : List VectorMeta) (s : VectorStore) :
    Bool × VectorStore :=
  if chunks.isEmpty || metadatas.isEmpty then (false, s)
  else
    let s1 := (getOrCreateCollection projectId s).1
    let existing := (getOrCreateCollection projectId s).2
    if addOk then
      let newEntries := (chunks.zip metadatas).enum.map (fun em =>
        { docIdKey := documentId, chunkIdKey := em.1, text := em.2.1, meta := em.2.2 })
      (true, setCollection projectId (existing ++ newEntries) s1)
    else (false, s1)

/-- `VectorService.delete_document_embeddings`: remove every entry of the
project's collection whose metadata `document_id` matches. -/
def deleteDocumentEmbeddings (projectId documentId : Nat) (s : VectorStore) :
    Bool × VectorStore :=
  let s1 := (getOrCreateCollection projectId s).1
  let entries := (getOrCreateCollection projectId s).2
  (true, setCollection projectId (entries.filter (fun e => !(e.meta.documentId == documentId))) s1)

/-! ### `app/services/background_processor.py` -/

/-- A queued processing job (`priority` is accepted but never reorders
the FIFO queue). -/
structure Job where
  documentId : Nat
  priority : Nat
deriving DecidableEq, Repr

/-- The state a `BackgroundProcessor` instance owns or touches: the FIFO
queue, the in-flight job set (`current_tasks` keys), the document store
and the vector store. -/
structure SysState where
  queue : List Job
  inFlight : List Nat
  docs : Nat → Option Document
  store : VectorStore

/-- The outcomes of the external collaborators during one pipeline run:
text extraction (`document_processor`), semantic analysis
(`ai_service.analyze_document`), the embedding/index write, and the clock. -/
structure Env where
  extract : Except Str (Str × Nat)
  analyze : Except Str AnalysisData
  addOk : Bool
  now : Nat

/-- Look a document up (`BackgroundProcessor._get_document`). -/
def getDocument (st : SysState) (documentId : Nat) : Option Document := st.docs documentId

/-- Persist a document row. -/
def saveDoc (st : SysState) (d : Document) : SysState :=
  { st with docs := fun n => if n == d.id then some d else st.docs n }

/-- The metadata enrichment loop of `_store_embeddings` (chunk index,
document/project ids, filename, type and offsets). -/
def chunkMetadatas (doc : Document) (chunks : List TextChunk) : List VectorMeta :=
  chunks.enum.map (fun ci =>
    { documentId := doc.id, projectId := doc.projectId, chunkId := ci.1,
      filename := doc.filename, chunkTypeTag := ci.2.chunkType,
      startPos := ci.2.startPos, endPos := ci.2.endPos })

/-- `BackgroundProcessor._store_embeddings`: returns `false` without any
write when there are no chunks, otherwise defers to the vector service.
Any exception inside is caught and becomes `false`. -/
def storeEmbeddings (env : Env) (doc : Document) (chunks : List TextChunk)
    (s : VectorStore) : Bool × VectorStore :=
  if chunks.isEmpty then (false, s)
  else
    addDocumentEmbeddings env.addOk doc.projectId doc.id (chunks.map (fun c => c.text))
      (chunkMetadatas doc chunks) s

/-- Remove a key from the in-flight set (the `finally` block's
`del self.current_tasks[document_id]`; dict keys are unique, so deleting
the key is removing every occurrence). -/
def removeInFlight (st : SysState) (documentId : Nat) : SysState :=
  { st with inFlight := st.inFlight.filter (fun n => !(n == documentId)) }

/-- Steps 4–5 of `_process_document` (chunking, embedding storage and the
final status update), together with the error handler and the `finally`
removal.  `doc3` is the document as of the analysis step, `trace3` the
status history so far, `t` the extracted text.  `_chunk_text` raises
`"No extracted text available"` on falsy text; a `False` result of
`_store_embeddings` raises `"Failed to store embeddings"`; both land in
the outer `except` block which persists `ERROR`. -/
def pipelineIndexing (env : Env) (st3 : SysState) (documentId : Nat) (doc3 : Document)
    (t : Str) (trace3 : List DocumentStatus) : SysState × List DocumentStatus :=
  if t.isEmpty then
    let docE := { doc3 with
      status := DocumentStatus.ERROR,
      errorMessage := some (("No extracted text available").toList) }
    (removeInFlight (saveDoc st3 docE) documentId, trace3 ++ [DocumentStatus.ERROR])
  else
    let chunks := chunkText defaultConfig t doc3.id doc3.filename
    let res := storeEmbeddings env doc3 chunks st3.store
    let st4 := { st3 with store := res.2 }
    if res.1 then
      if doc3.status ≠ DocumentStatus.ANALYZED then
        let doc5 := { doc3 with
          status := DocumentStatus.ANALYZED, analyzedAt := some env.now }
        (removeInFlight (saveDoc st4 doc5) documentId, trace3 ++ [DocumentStatus.ANALYZED])
      else (removeInFlight st4 documentId, trace3)
    else
      let docE := { doc3 with
        status := DocumentStatus.ERROR,
        errorMessage := some (("Failed to store embeddings").toList) }
      (removeInFlight (saveDoc st4 docE) documentId, trace3 ++ [DocumentStatus.ERROR])

/-- The document after the transition to `PROCESSING` (step 1). -/
def processingDoc (doc : Document) : Document :=
  { doc with status := DocumentStatus.PROCESSING }

/-- The document after a successful extraction is persisted (steps 2–3):
extracted text, unit count, and the transition to `PROCESSED`. -/
def extractedDoc (doc : Document) (t : Str) (pages : Nat) : Document :=
  { doc with
    status := DocumentStatus.PROCESSED, extractedText := some t, pageCount := some pages }

/-- `BackgroundProcessor._process_document`: one full pipeline run for a
document, with the database session as a succeeding collaborator.
Returns the final state together with the ordered list of `status` values
assigned to the document during the run (the commit history of the state
machine).  The `finally` removal from the in-flight set happens on every
path. -/
def processDocument (env : Env) (st : SysState) (documentId : Nat) :
    SysState × List DocumentStatus :=
  match getDocument st documentId with
  | none => (removeInFlight st documentId, [])
  | some doc0 =>
    let doc1 := processingDoc doc0
    let st1 := saveDoc st doc1
    match env.extract with
    | Except.error e =>
      let docE := { doc1 with status := DocumentStatus.ERROR, errorMessage := some e }
      (removeInFlight (saveDoc st1 docE) documentId,
        [DocumentStatus.PROCESSING, DocumentStatus.ERROR])
    | Except.ok extRes =>
      let doc2 := extractedDoc doc0 extRes.1 extRes.2
      let st2 := saveDoc st1 doc2
      match env.analyze with
      | Except.ok a =>
        let doc3 := markAsAnalyzed doc2 a env.now
        pipelineIndexing env (saveDoc st2 doc3) documentId doc3 extRes.1
          [DocumentStatus.PROCESSING, DocumentStatus.PROCESSED, DocumentStatus.ANALYZED]
      | Except.error _ =>
        pipelineIndexing env st2 documentId doc2 extRes.1
          [DocumentStatus.PROCESSING, DocumentStatus.PROCESSED]

/-- One iteration of `BackgroundProcessor._processing_loop` when the queue
is non-empty: pop the next job; if its document id is already in flight,
discard it (no re-queue, no other effect); otherwise add the id to the
in-flight set and run the pipeline for it. -/
def processingLoopStep (env : Env) (st : SysState) : SysState :=
  match st.queue with
  | [] => st
  | job :: rest =>
    let st1 := { st with queue := rest }
    if job.documentId ∈ st1.inFlight then st1
    else
      (processDocument env { st1 with inFlight := job.documentId :: st1.inFlight }
        job.documentId).1

/-- `BackgroundProcessor.queue_document_for_processing`. -/
def queueDocumentForProcessing (st : SysState) (documentId priority : Nat) : SysState :=
  { st with queue := st.queue ++ [{ documentId := documentId, priority := priority }] }

/-- Python runtime errors that the embedding distinguishes. -/
inductive PyErr where
  | nameError (name : Str)
deriving DecidableEq, Repr

/-- `BackgroundProcessor.reprocess_document`.  Its first statement is
`async with get_db() as db:`, but `get_db` is an unbound name in this
module (only `get_async_session` is imported), so the call raises
`NameError` before the `try` block is entered and before any of the body
(embedding deletion, field reset, enqueue) can run; the exception
propagates to the caller and the state is untouched. -/
def reprocessDocument (st : SysState) (_documentId : Nat) :
    SysState × Except PyErr Unit :=
  (st, Except.error (PyErr.nameError (("get_db").toList)))

/-- The body of `reprocess_document` as written (lines 263–284), i.e. what
would run if the session name resolved: delete the document's embeddings,
reset `status`, `extracted_text`, `page_count`, `analyzed_at` and
`error_message` (and only those fields), then enqueue. -/
def reprocessDocumentBody (st : SysState) (documentId : Nat) : SysState :=
  match getDocument st documentId with
  | none => st
  | some doc =>
    let (_, store1) := deleteDocumentEmbeddings doc.projectId documentId st.store
    let docR := { doc with
      status := DocumentStatus.UPLOADED,
      extractedText := none,
      pageCount := none,
      analyzedAt := none,
      errorMessage := none }
    queueDocumentForProcessing (saveDoc { st with store := store1 } docR) documentId 1

/-! ### `AIService.retrieve_context` (`app/services/ai_service.py`) -/

/-- A `ChatContextChunk`, with the similarity score as a rational (the
Python float arithmetic here is plain subtraction and comparison on exact
decision points, which the rationals model). -/
structure ContextChunk where
  documentId : Nat
  chunkText : Str
  similarityScore : ℚ
  metadata : VectorMeta
deriving DecidableEq, Repr

/-- The conversion loop of `retrieve_context` (lines 99–110): zip the
query results; keep an entry only when its text is non-empty and its
metadata present (`if doc_text and metadata`), converting the distance via
`1.0 - distance if distance < 1.0 else 0.0`. -/
def retrieveContextChunks (documents : List Str) (metadatas : List (Option VectorMeta))
    (distances : List ℚ) : List ContextChunk :=
  ((documents.zip metadatas).zip distances).filterMap (fun entry =>
    match entry.1.2 with
    | some m =>
      if entry.1.1.isEmpty then none
      else some
        { documentId := m.documentId, chunkText := entry.1.1,
          similarityScore := if entry.2 < 1 then 1 - entry.2 else 0, metadata := m }
    | none => none)

/-- The specification-side reading of the same loop: similarity is
`max(0, 1 - distance)` and entries with empty text or missing metadata
are dropped. -/
def retrieveContextChunksSpec (documents : List Str) (metadatas : List (Option VectorMeta))
    (distances : List ℚ) : List ContextChunk :=
  ((documents.zip metadatas).zip distances).filterMap (fun entry =>
    match entry.1.2 with
    | some m =>
      if entry.1.1.isEmpty then none
      else some
        { documentId := m.documentId, chunkText := entry.1.1,
          similarityScore := max 0 (1 - entry.2), metadata := m }
    | none => none)

/-! ### The `chunk_text` paragraph gate, named for the statements below -/

/-- The paragraphs that pass the additional `min_chunk_size` gate at the
top of the `chunk_text` paragraph loop (lines 95–97:
`if len(paragraph.strip()) < self.min_chunk_size: continue`). -/
def paragraphsEnteringChunking (cfg : ChunkerConfig) (text : Str) : List Str :=
  (splitIntoParagraphs (preprocessText text)).filter
    (fun p => !((pyStrip p).length < cfg.minChunkSize))

/-! ### Concrete inputs used by the example-scenario claims -/

/-- The example-scenario document text `"Introduzione. " * 5 + "A" * 1500`. -/
def c1text : Str :=
  (List.replicate 5 (("Introduzione. ").toList)).flatten ++ List.replicate 1500 'A'

/-- A filename for the concrete runs. -/
def exFilename : Str := ("tesi.pdf").toList

/-- The sentence-joined source text of the first pre-overlap chunk of the
example scenario: five `"Introduzione"` fragments joined by single
spaces (64 characters). -/
def c1first : Str :=
  ("Introduzione Introduzione Introduzione Introduzione Introduzione").toList

/-- The second pre-overlap chunk of the example scenario. -/
def c1second : Str := List.replicate 1500 'A'

/-- A 50-character paragraph: long enough for `_split_into_paragraphs`
(which keeps paragraphs longer than 20 characters) but below the
`min_chunk_size = 100` gate in `chunk_text`. -/
def c2text50 : Str := List.replicate 50 'B'

/-- A paragraph of exactly 20 characters (the boundary case). -/
def c2text20 : Str := List.replicate 20 'B'

/-- A single long paragraph whose first emitted chunk is 900 characters
and has a whitespace character exactly 200 positions from its end, so
that the raw trailing overlap window starts with a space. -/
def c3text : Str :=
  List.replicate 700 'a' ++ (". ").toList ++ List.replicate 199 'b' ++ (". ").toList ++
    List.replicate 400 'c'

/-- A dummy chunk for total list indexing in concrete statements. -/
def dummyChunk : TextChunk := mkChunk [] ChunkType.PARAGRAPH 0 0 0 [] 0

/-! ### Concrete pipeline runs -/

/-- A freshly uploaded document. -/
def exDoc : Document :=
  { id := 1, filename := exFilename, originalFilename := exFilename, projectId := 7,
    status := DocumentStatus.UPLOADED, extractedText := none, pageCount := none,
    isAnalyzed := false, analysisResult := none, centralThesis := none,
    keyConcepts := none, argumentativeStructure := none, citedSources := none,
    errorMessage := none, analyzedAt := none }

/-- A one-document document store. -/
def exDocs : Nat → Option Document := fun n => if n == 1 then some exDoc else none

/-- The system state holding just `exDoc`, nothing queued or indexed. -/
def exState : SysState := { queue := [], inFlight := [], docs := exDocs, store := [] }

/-- 120 `'a'`s: a text that segments into exactly one valid chunk. -/
def exLongText : Str := List.replicate 120 'a'

/-- A text below every length threshold: segmentation yields no chunks. -/
def exShortText : Str := ("Hi").toList

/-- A sample analysis payload. -/
def exAnalysis : AnalysisData :=
  { centralThesis := some (("T").toList), keyConcepts := none,
    argumentativeStructure := none, citedSources := none }

/-- Collaborators for the zero-chunk run: extraction succeeds with a text
that segments to nothing, semantic analysis fails, indexing would
succeed. -/
def envC4 : Env :=
  { extract := Except.ok (exShortText, 3),
    analyze := Except.error (("AnalysisError").toList), addOk := true, now := 5 }

/-- Collaborators for the analysis-failure run: extraction and indexing
succeed, semantic analysis raises. -/
def envC5 : Env :=
  { extract := Except.ok (exLongText, 3),
    analyze := Except.error (("AnalysisError").toList), addOk := true, now := 5 }

/-- Collaborators for the indexing-failure run: extraction and semantic
analysis succeed, the vector write fails. -/
def envC6 : Env :=
  { extract := Except.ok (exLongText, 3), analyze := Except.ok exAnalysis,
    addOk := false, now := 5 }

/-- A state with document 1 queued while already in flight. -/
def stateC9 : SysState :=
  { queue := [{ documentId := 1, priority := 1 }], inFlight := [1], docs := exDocs,
    store := [] }

/-! ### Predicates used by the overlap development -/

/-- `l` ends with `s`. -/
def SuffixOf (s l : Str) : Prop := ∃ t, l = t ++ s

/-- `l` starts with `p`. -/
def PrefixOf (p l : Str) : Prop := ∃ t, l = p ++ t

/-- Total indexing into a chunk list. -/
def nthChunk (l : List TextChunk) (i : Nat) : TextChunk := l.getD i dummyChunk

/-- No two adjacent whitespace characters. -/
def noDW (l : Str) : Prop :=
  List.Chain' (fun a b => ¬(isPySpace a = true ∧ isPySpace b = true)) l

/-- No sentence-boundary punctuation character immediately followed by
whitespace (so `re.search(r'[.!?]\s+')` finds nothing). -/
def noPW (l : Str) : Prop :=
  List.Chain' (fun a b => ¬(isPunctSB a = true ∧ isPySpace b = true)) l

/-- The last character, if any, is not sentence punctuation. -/
def LastNonPunct (l : Str) : Prop :=
  ∀ h, l.getLast? = some h → isPunctSB h = false

/-- The first character, if any, is not whitespace. -/
def HeadNonWs (l : Str) : Prop := ∀ h, l.head? = some h → isPySpace h = false

/-- The last character, if any, is not whitespace. -/
def LastNonWs (l : Str) : Prop := ∀ h, l.getLast? = some h → isPySpace h = false

/-- The shape shared by every text that the sentence-accumulation loop
assembles: non-empty, stripped at both ends, no double whitespace and no
sentence boundary (punctuation followed by whitespace) anywhere. -/
def CleanText (l : Str) : Prop := l ≠ [] ∧ noDW l ∧ noPW l ∧ HeadNonWs l ∧ LastNonWs l

end TutUni

namespace TutUni

/-! ## Claim C1 -/

set_option maxRecDepth 10000 in
/-- C1 counterexample: on the example text
`"Introduzione. " * 5 + "A" * 1500` with the default parameters
(`chunk_size=1000, overlap_size=200, min_chunk_size=100`), `chunk_text`
does **not** return at least two chunks: the 64-character first chunk is
dropped by final validation, leaving exactly one chunk. -/
theorem C1_counterexample :
    ¬ 2 ≤ (chunkText defaultConfig c1text 1 exFilename).length := by
  decide

set_option maxRecDepth 10000 in
/-- C1 (amended): on the example text the segmenter builds two
pre-overlap chunks (the 64-character sentence-joined prefix and the 1500
`'A'`s), and returns exactly **one** chunk — the first is dropped by
final validation as shorter than `min_chunk_size` — whose text begins
with the last at-most-200 characters of the first chunk's source text
(here the whole 64-character chunk). -/
theorem C1_amended_single_chunk_with_overlap :
    (preOverlapChunks defaultConfig c1text 1 exFilename).map (fun c => c.text)
        = [c1first, c1second] ∧
      (chunkText defaultConfig c1text 1 exFilename).map (fun c => c.text)
        = [c1first ++ ' ' :: c1second] ∧
      c1first.length < defaultConfig.minChunkSize ∧
      (takeLast 200 c1first).isPrefixOf (c1first ++ ' ' :: c1second) = true ∧
      (takeLast 200 c1first).length ≤ 200 := by
  refine ⟨eq_of_beq (by decide), eq_of_beq (by decide), by decide, by decide, by decide⟩

/-! ## Claim C2 -/

set_option maxRecDepth 10000 in
/-- C2 counterexample: a 50-character paragraph survives
`_split_into_paragraphs` (it is longer than 20 characters) yet is
discarded by the additional `min_chunk_size` gate in `chunk_text` before
classification; and a paragraph of exactly 20 characters — not *shorter
than* 20 — is discarded by the splitter as well. -/
theorem C2_counterexample :
    (20 < c2text50.length ∧
        splitIntoParagraphs (preprocessText c2text50) = [c2text50] ∧
        paragraphsEnteringChunking defaultConfig c2text50 = []) ∧
      (c2text20.length = 20 ∧ splitIntoParagraphs (preprocessText c2text20) = []) := by
  refine ⟨⟨by decide, by decide, by decide⟩, by decide, by decide⟩

/-- C2 (amended): a paragraph produced by the blank-line split is kept by
`_split_into_paragraphs` exactly when its stripped length strictly
exceeds 20 characters (so paragraphs of exactly 20 characters are also
discarded), and the paragraph loop of `chunk_text` additionally skips —
before classification and chunk creation — every paragraph whose
stripped length is below `min_chunk_size`. -/
theorem C2_amended_paragraph_gates (l : Str) :
    (∀ p, p ∈ splitIntoParagraphs l ↔
        ∃ q ∈ splitParasRaw l, p = pyStrip q ∧ 20 < p.length) ∧
      ∀ cfg docId filename ps acc, paragraphLoop cfg docId filename ps acc =
        paragraphLoop cfg docId filename
          (ps.filter (fun p => !((pyStrip p).length < cfg.minChunkSize))) acc := by
  constructor
  · intro p
    simp only [splitIntoParagraphs, List.mem_filterMap]
    constructor
    · rintro ⟨q, hq, hsome⟩
      by_cases h : pyStrip q ≠ [] ∧ 20 < (pyStrip q).length
      · rw [if_pos (by simpa using h)] at hsome
        obtain rfl := Option.some.inj hsome
        exact ⟨q, hq, rfl, h.2⟩
      · rw [if_neg (by simpa using h)] at hsome
        cases hsome
    · rintro ⟨q, hq, rfl, hlen⟩
      refine ⟨q, hq, ?_⟩
      rw [if_pos]
      have hne : pyStrip q ≠ [] := by
        intro h0
        rw [h0] at hlen
        simp at hlen
      simp [hne, hlen]
  · intro cfg docId filename ps
    induction ps with
    | nil => intro acc; rfl
    | cons p ps ih =>
      intro acc
      by_cases h : (pyStrip p).length < cfg.minChunkSize
      · simp [paragraphLoop, List.filter_cons, h, ih]
      · simp [paragraphLoop, List.filter_cons, h, ih]

/-! ## Claim C7 -/

/-- C7: the retrieval conversion loop is exactly its specification: each
returned `(text, metadata, distance)` entry becomes a context chunk with
similarity `max(0, 1 - distance)`, and entries with empty text or missing
metadata are dropped rather than raising. -/
theorem C7_retrieval_similarity (documents : List Str)
    (metadatas : List (Option VectorMeta)) (distances : List ℚ) :
    retrieveContextChunks documents metadatas distances =
      retrieveContextChunksSpec documents metadatas distances := by
  unfold retrieveContextChunks retrieveContextChunksSpec
  congr 1
  funext entry
  rcases entry with ⟨⟨t, m⟩, dist⟩
  cases m with
  | none => rfl
  | some m =>
    simp only
    by_cases ht : t.isEmpty
    · rw [if_pos ht, if_pos ht]
    · rw [if_neg ht, if_neg ht]
      have : (if dist < 1 then 1 - dist else 0) = max 0 (1 - dist) := by
        rcases lt_or_le dist 1 with h | h
        · rw [if_pos h, max_eq_right]
          linarith
        · rw [if_neg (not_lt.mpr h), max_eq_left]
          linarith
      rw [this]

/-! ## Claim C8 -/

/-- C8: `reprocess_document` cannot perform any of its advertised
effects: its first statement evaluates the unbound name `get_db` (the
module imports only `get_async_session`), so every call raises
`NameError` before the vector deletion, the field reset or the enqueue
can happen, and the system state is returned untouched — in particular
all prior vector entries for the document remain. -/
theorem C8_reprocess_raises_name_error (st : SysState) (documentId : Nat) :
    reprocessDocument st documentId =
      (st, Except.error (PyErr.nameError (("get_db").toList))) := rfl

/-! ## Claim C10 -/

/-- C10: `chunk_text` is total at its public boundary: the returned value
is the `try` body's outcome run through the catch-all handler, the
handler maps **every** internal error to the empty list, and an internal
error is therefore indistinguishable from a successfully computed empty
chunk list. -/
theorem C10_chunk_text_total (cfg : ChunkerConfig) (text : Str) (docId : Nat)
    (filename : Str) :
    chunkText cfg text docId filename =
        handleChunkErrors (chunkTextBody cfg text docId filename) ∧
      (∀ e : Str, handleChunkErrors (Except.error e) = []) ∧
      handleChunkErrors (Except.ok []) = [] := by
  exact ⟨rfl, fun _ => rfl, rfl⟩

/-! ## Helper lemmas for the pipeline theorems -/

/-- A non-nil list is not `isEmpty`. -/
theorem isEmpty_false_of_ne_nil {α : Type} {l : List α} (h : l ≠ []) :
    l.isEmpty = false := by
  cases l with
  | nil => exact absurd rfl h
  | cons a as => rfl

/-- Segmenting the empty text yields no chunks. -/
theorem chunkText_nil (cfg : ChunkerConfig) (docId : Nat) (filename : Str) :
    chunkText cfg [] docId filename = [] := rfl

/-- The enriched metadata list is as long as the chunk list. -/
theorem chunkMetadatas_length (doc : Document) (chunks : List TextChunk) :
    (chunkMetadatas doc chunks).length = chunks.length := by
  simp [chunkMetadatas]

/-- `storeEmbeddings` on a non-empty chunk list with a succeeding write
reports success. -/
theorem storeEmbeddings_success (env : Env) (doc : Document) (chunks : List TextChunk)
    (s : VectorStore) (hne : chunks ≠ []) (hadd : env.addOk = true) :
    (storeEmbeddings env doc chunks s).1 = true := by
  have h1 : chunks.isEmpty = false := isEmpty_false_of_ne_nil hne
  have h2 : (chunks.map (fun c => c.text)).isEmpty = false := by
    apply isEmpty_false_of_ne_nil
    simpa using hne
  have h3 : (chunkMetadatas doc chunks).isEmpty = false := by
    apply isEmpty_false_of_ne_nil
    intro h0
    apply hne
    have hlen := chunkMetadatas_length doc chunks
    rw [h0] at hlen
    exact List.length_eq_zero.mp hlen.symm
  simp [storeEmbeddings, addDocumentEmbeddings, h1, h2, h3, hadd]

/-- `storeEmbeddings` with a failing embedding/index write collaborator
always reports failure. -/
theorem storeEmbeddings_addFail (env : Env) (doc : Document) (chunks : List TextChunk)
    (s : VectorStore) (hadd : env.addOk = false) :
    (storeEmbeddings env doc chunks s).1 = false := by
  unfold storeEmbeddings addDocumentEmbeddings
  by_cases h1 : chunks.isEmpty
  · simp [h1]
  · simp only [h1, Bool.false_eq_true, if_false]
    split
    · rfl
    · simp [hadd]

/-- `storeEmbeddings` with no chunks fails without touching the store. -/
theorem storeEmbeddings_nil (env : Env) (doc : Document) (s : VectorStore) :
    storeEmbeddings env doc [] s = (false, s) := rfl

/-- Unfolding `_process_document` when the document exists, extraction
succeeds and semantic analysis fails. -/
theorem processDocument_extract_ok_analyze_error (env : Env) (st : SysState)
    (documentId : Nat) (doc : Document) (t : Str) (pages : Nat) (e : Str)
    (hdoc : getDocument st documentId = some doc)
    (hext : env.extract = Except.ok (t, pages))
    (hana : env.analyze = Except.error e) :
    processDocument env st documentId =
      pipelineIndexing env
        (saveDoc (saveDoc st (processingDoc doc)) (extractedDoc doc t pages))
        documentId (extractedDoc doc t pages) t
        [DocumentStatus.PROCESSING, DocumentStatus.PROCESSED] := by
  unfold processDocument
  simp only [hdoc, hext, hana]

/-- Unfolding `_process_document` when the document exists and both
extraction and semantic analysis succeed: `mark_as_analyzed` runs before
segmentation and indexing. -/
theorem processDocument_extract_ok_analyze_ok (env : Env) (st : SysState)
    (documentId : Nat) (doc : Document) (t : Str) (pages : Nat) (a : AnalysisData)
    (hdoc : getDocument st documentId = some doc)
    (hext : env.extract = Except.ok (t, pages))
    (hana : env.analyze = Except.ok a) :
    processDocument env st documentId =
      pipelineIndexing env
        (saveDoc (saveDoc (saveDoc st (processingDoc doc)) (extractedDoc doc t pages))
          (markAsAnalyzed (extractedDoc doc t pages) a env.now))
        documentId (markAsAnalyzed (extractedDoc doc t pages) a env.now) t
        [DocumentStatus.PROCESSING, DocumentStatus.PROCESSED, DocumentStatus.ANALYZED] := by
  unfold processDocument
  simp only [hdoc, hext, hana]

/-- The indexing stage when segmentation yields zero chunks: the
`_store_embeddings` guard reports failure without touching the store and
the run ends in `ERROR` with the generic exception message. -/
theorem pipelineIndexing_noChunks (env : Env) (st3 : SysState) (documentId : Nat)
    (doc3 : Document) (t : Str) (trace3 : List DocumentStatus)
    (ht : t ≠ [])
    (hchunks : chunkText defaultConfig t doc3.id doc3.filename = []) :
    pipelineIndexing env st3 documentId doc3 t trace3 =
      (removeInFlight (saveDoc st3 { doc3 with
          status := DocumentStatus.ERROR,
          errorMessage := some (("Failed to store embeddings").toList) }) documentId,
        trace3 ++ [DocumentStatus.ERROR]) := by
  unfold pipelineIndexing
  rw [isEmpty_false_of_ne_nil ht]
  simp only [Bool.false_eq_true, if_false, hchunks, storeEmbeddings_nil]

/-- The indexing stage when the vector write fails: the run ends in
`ERROR` with the generic exception message. -/
theorem pipelineIndexing_storeFail (env : Env) (st3 : SysState) (documentId : Nat)
    (doc3 : Document) (t : Str) (trace3 : List DocumentStatus)
    (ht : t ≠ [])
    (hfail : (storeEmbeddings env doc3 (chunkText defaultConfig t doc3.id doc3.filename)
        st3.store).1 = false) :
    pipelineIndexing env st3 documentId doc3 t trace3 =
      (removeInFlight (saveDoc { st3 with
          store := (storeEmbeddings env doc3
            (chunkText defaultConfig t doc3.id doc3.filename) st3.store).2 }
          { doc3 with
            status := DocumentStatus.ERROR,
            errorMessage := some (("Failed to store embeddings").toList) }) documentId,
        trace3 ++ [DocumentStatus.ERROR]) := by
  unfold pipelineIndexing
  rw [isEmpty_false_of_ne_nil ht]
  simp only [Bool.false_eq_true, if_false, hfail]

/-- The indexing stage when the vector write succeeds and the document is
not yet `ANALYZED`: the run stamps `ANALYZED`. -/
theorem pipelineIndexing_storeOk (env : Env) (st3 : SysState) (documentId : Nat)
    (doc3 : Document) (t : Str) (trace3 : List DocumentStatus)
    (ht : t ≠ [])
    (hok : (storeEmbeddings env doc3 (chunkText defaultConfig t doc3.id doc3.filename)
        st3.store).1 = true)
    (hstatus : doc3.status ≠ DocumentStatus.ANALYZED) :
    pipelineIndexing env st3 documentId doc3 t trace3 =
      (removeInFlight (saveDoc { st3 with
          store := (storeEmbeddings env doc3
            (chunkText defaultConfig t doc3.id doc3.filename) st3.store).2 }
          { doc3 with
            status := DocumentStatus.ANALYZED, analyzedAt := some env.now }) documentId,
        trace3 ++ [DocumentStatus.ANALYZED]) := by
  unfold pipelineIndexing
  rw [isEmpty_false_of_ne_nil ht]
  simp only [Bool.false_eq_true, if_false, hok, if_true, hstatus, ne_eq,
    not_false_eq_true]

/-- Every branch of the indexing stage ends with the `finally` removal
from the in-flight set. -/
theorem pipelineIndexing_notInFlight (env : Env) (st3 : SysState) (documentId : Nat)
    (doc3 : Document) (t : Str) (trace3 : List DocumentStatus) :
    documentId ∉ ((pipelineIndexing env st3 documentId doc3 t trace3).1).inFlight := by
  have hrm : ∀ s : SysState, documentId ∉ (removeInFlight s documentId).inFlight := by
    intro s hmem
    simp [removeInFlight, List.mem_filter] at hmem
  unfold pipelineIndexing
  by_cases h1 : t.isEmpty
  · simp only [h1, if_true]
    exact hrm _
  · simp only [h1, Bool.false_eq_true, if_false]
    by_cases h2 : (storeEmbeddings env doc3
        (chunkText defaultConfig t doc3.id doc3.filename) st3.store).1 = true
    · by_cases h3 : doc3.status = DocumentStatus.ANALYZED
      · simp only [h2, if_true, ne_eq, h3, not_true_eq_false, if_false]
        exact hrm _
      · simp only [h2, if_true, ne_eq, h3, not_false_eq_true, if_true]
        exact hrm _
    · rw [Bool.not_eq_true] at h2
      simp only [h2, Bool.false_eq_true, if_false]
      exact hrm _

/-- The trace produced by the indexing stage extends the incoming
trace. -/
theorem pipelineIndexing_trace (env : Env) (st3 : SysState) (documentId : Nat)
    (doc3 : Document) (t : Str) (trace3 : List DocumentStatus) :
    ∃ tail, (pipelineIndexing env st3 documentId doc3 t trace3).2 = trace3 ++ tail := by
  unfold pipelineIndexing
  by_cases h1 : t.isEmpty
  · simp only [h1, if_true]
    exact ⟨_, rfl⟩
  · simp only [h1, Bool.false_eq_true, if_false]
    by_cases h2 : (storeEmbeddings env doc3
        (chunkText defaultConfig t doc3.id doc3.filename) st3.store).1 = true
    · by_cases h3 : doc3.status = DocumentStatus.ANALYZED
      · simp only [h2, if_true, ne_eq, h3, not_true_eq_false, if_false]
        exact ⟨[], (List.append_nil _).symm⟩
      · simp only [h2, if_true, ne_eq, h3, not_false_eq_true, if_true]
        exact ⟨_, rfl⟩
    · rw [Bool.not_eq_true] at h2
      simp only [h2, Bool.false_eq_true, if_false]
      exact ⟨_, rfl⟩

/-! ## Claim C4 -/

set_option maxRecDepth 4000 in
/-- C4 counterexample: a run whose extraction succeeds but whose text
segments to zero chunks does end in `ERROR` with no vector entries
written, but the persisted error message is `"Failed to store
embeddings"` (the generic exception text), not `"no indexable
content"`. -/
theorem C4_counterexample :
    (getDocument (processDocument envC4 exState 1).1 1).map
          (fun d => (d.status, d.errorMessage)) =
        some (DocumentStatus.ERROR, some (("Failed to store embeddings").toList)) ∧
      (processDocument envC4 exState 1).1.store = [] ∧
      chunkText defaultConfig exShortText 1 exFilename = [] ∧
      (("Failed to store embeddings").toList : Str) ≠ (("no indexable content").toList) := by
  refine ⟨by decide, by decide, by decide, by decide⟩

/-- C4 (amended): if extraction succeeds with non-empty text whose
segmentation yields zero chunks, the run ends with the document in
`ERROR` carrying the message `"Failed to store embeddings"` (the
exception raised when `_store_embeddings` reports failure on an empty
chunk list), and the vector store is left untouched. -/
theorem C4_amended_zero_chunks_error (env : Env) (st : SysState) (documentId : Nat)
    (doc : Document) (t : Str) (pages : Nat)
    (hdoc : getDocument st documentId = some doc)
    (hid : doc.id = documentId)
    (hext : env.extract = Except.ok (t, pages))
    (ht : t ≠ [])
    (hchunks : chunkText defaultConfig t doc.id doc.filename = []) :
    (getDocument (processDocument env st documentId).1 documentId).map
          (fun d => (d.status, d.errorMessage)) =
        some (DocumentStatus.ERROR, some (("Failed to store embeddings").toList)) ∧
      (processDocument env st documentId).1.store = st.store := by
  cases hana : env.analyze with
  | ok a =>
    rw [processDocument_extract_ok_analyze_ok env st documentId doc t pages a hdoc hext hana,
      pipelineIndexing_noChunks env _ documentId
        (markAsAnalyzed (extractedDoc doc t pages) a env.now) t _ ht hchunks]
    constructor
    · simp [getDocument, saveDoc, removeInFlight, markAsAnalyzed, extractedDoc, hid]
    · simp [saveDoc, removeInFlight]
  | error e =>
    rw [processDocument_extract_ok_analyze_error env st documentId doc t pages e hdoc hext
        hana,
      pipelineIndexing_noChunks env _ documentId (extractedDoc doc t pages) t _ ht hchunks]
    constructor
    · simp [getDocument, saveDoc, removeInFlight, extractedDoc, hid]
    · simp [saveDoc, removeInFlight]

/-- C4 witness: the amended theorem applied to the concrete zero-chunk
run. -/
theorem C4_witness :
    (getDocument (processDocument envC4 exState 1).1 1).map
          (fun d => (d.status, d.errorMessage)) =
        some (DocumentStatus.ERROR, some (("Failed to store embeddings").toList)) ∧
      (processDocument envC4 exState 1).1.store = exState.store :=
  C4_amended_zero_chunks_error envC4 exState 1 exDoc exShortText 3 (by decide) (by decide)
    rfl (by decide) (by decide)

/-! ## Claim C5 -/

/-- C5: when extraction succeeds, segmentation is non-empty and the
vector write succeeds, a failing semantic-analysis collaborator does not
stop the run: the document still ends in `ANALYZED` with a null
`analysis_result`. -/
theorem C5_analysis_failure_nonfatal (env : Env) (st : SysState) (documentId : Nat)
    (doc : Document) (t : Str) (pages : Nat) (e : Str)
    (hdoc : getDocument st documentId = some doc)
    (hid : doc.id = documentId)
    (hres : doc.analysisResult = none)
    (hext : env.extract = Except.ok (t, pages))
    (hana : env.analyze = Except.error e)
    (hchunks : chunkText defaultConfig t doc.id doc.filename ≠ [])
    (hadd : env.addOk = true) :
    (getDocument (processDocument env st documentId).1 documentId).map
        (fun d => (d.status, d.analysisResult)) =
      some (DocumentStatus.ANALYZED, none) := by
  have ht : t ≠ [] := by
    intro h0
    rw [h0] at hchunks
    exact hchunks (chunkText_nil _ _ _)
  rw [processDocument_extract_ok_analyze_error env st documentId doc t pages e hdoc hext
      hana,
    pipelineIndexing_storeOk env _ documentId (extractedDoc doc t pages) t _ ht
      (storeEmbeddings_success env (extractedDoc doc t pages) _ _ (by exact hchunks) hadd)
      (by simp [extractedDoc])]
  simp [getDocument, saveDoc, removeInFlight, extractedDoc, hid, hres]

set_option maxRecDepth 4000 in
/-- C5 witness: the concrete analysis-failure run. -/
theorem C5_witness :
    (getDocument (processDocument envC5 exState 1).1 1).map
        (fun d => (d.status, d.analysisResult)) =
      some (DocumentStatus.ANALYZED, none) :=
  C5_analysis_failure_nonfatal envC5 exState 1 exDoc exLongText 3
    (("AnalysisError").toList) (by decide) (by decide) (by decide) rfl rfl (by decide) rfl

/-! ## Claim C6 -/

set_option maxRecDepth 4000 in
/-- C6 counterexample: in a run where semantic analysis succeeds and the
vector write then fails, the status history is `PROCESSING, PROCESSED,
ANALYZED, ERROR`: the document is set to `ANALYZED` (by
`mark_as_analyzed`) *before* indexing has succeeded — no vector entry is
ever written — and `ERROR` is entered *after* `ANALYZED`. -/
theorem C6_counterexample :
    (processDocument envC6 exState 1).2 =
        [DocumentStatus.PROCESSING, DocumentStatus.PROCESSED, DocumentStatus.ANALYZED,
          DocumentStatus.ERROR] ∧
      (processDocument envC6 exState 1).1.store = [(7, [])] ∧
      (getDocument (processDocument envC6 exState 1).1 1).map (fun d => d.status) =
        some DocumentStatus.ERROR := by
  refine ⟨by decide, by decide, by decide⟩

/-- C6 (amended): a successful semantic-analysis step itself sets the
document's status to `ANALYZED` (via `mark_as_analyzed`), before
segmentation and indexing ever run, so the status history of any run
with successful extraction and analysis starts `PROCESSING, PROCESSED,
ANALYZED`; if the vector write then fails, the run appends `ERROR` —
`ERROR` is thus also reachable from `ANALYZED`. -/
theorem C6_amended_analyzed_before_indexing (env : Env) (st : SysState)
    (documentId : Nat) (doc : Document) (t : Str) (pages : Nat) (a : AnalysisData)
    (hdoc : getDocument st documentId = some doc)
    (hext : env.extract = Except.ok (t, pages))
    (hana : env.analyze = Except.ok a) :
    (processDocument env st documentId).2.take 3 =
        [DocumentStatus.PROCESSING, DocumentStatus.PROCESSED, DocumentStatus.ANALYZED] ∧
      (env.addOk = false → t ≠ [] →
        (processDocument env st documentId).2 =
          [DocumentStatus.PROCESSING, DocumentStatus.PROCESSED, DocumentStatus.ANALYZED,
            DocumentStatus.ERROR]) := by
  rw [processDocument_extract_ok_analyze_ok env st documentId doc t pages a hdoc hext hana]
  constructor
  · obtain ⟨tail, htail⟩ := pipelineIndexing_trace env
      (saveDoc (saveDoc (saveDoc st (processingDoc doc)) (extractedDoc doc t pages))
        (markAsAnalyzed (extractedDoc doc t pages) a env.now))
      documentId (markAsAnalyzed (extractedDoc doc t pages) a env.now) t
      [DocumentStatus.PROCESSING, DocumentStatus.PROCESSED, DocumentStatus.ANALYZED]
    rw [htail]
    rfl
  · intro haddf ht
    rw [pipelineIndexing_storeFail env _ documentId
        (markAsAnalyzed (extractedDoc doc t pages) a env.now) t _ ht
        (storeEmbeddings_addFail env _ _ _ haddf)]
    rfl

/-- C6 witness: the amended theorem applied to the concrete
indexing-failure run. -/
theorem C6_witness :
    (processDocument envC6 exState 1).2.take 3 =
        [DocumentStatus.PROCESSING, DocumentStatus.PROCESSED, DocumentStatus.ANALYZED] ∧
      (envC6.addOk = false → exLongText ≠ [] →
        (processDocument envC6 exState 1).2 =
          [DocumentStatus.PROCESSING, DocumentStatus.PROCESSED, DocumentStatus.ANALYZED,
            DocumentStatus.ERROR]) :=
  C6_amended_analyzed_before_indexing envC6 exState 1 exDoc exLongText 3 exAnalysis
    (by decide) rfl rfl

/-! ## Claim C9 -/

/-- C9: the in-flight job set is the at-most-one-run guard: a dequeued
job whose document id is already in flight is discarded — the queue
shrinks by that job and nothing else in the state changes (no re-queue,
no document transition, no vector write); a dequeued job whose id is not
in flight first adds the id to the set and then runs the pipeline; and
the pipeline removes the id from the set on every exit path. -/
theorem C9_in_flight_guard (env : Env) (st : SysState) :
    (∀ job rest, st.queue = job :: rest → job.documentId ∈ st.inFlight →
        processingLoopStep env st = { st with queue := rest }) ∧
      (∀ job rest, st.queue = job :: rest → job.documentId ∉ st.inFlight →
        processingLoopStep env st =
          (processDocument env
            { st with queue := rest, inFlight := job.documentId :: st.inFlight }
            job.documentId).1) ∧
      ∀ documentId, documentId ∉ ((processDocument env st documentId).1).inFlight := by
  have hrm : ∀ (s : SysState) (documentId : Nat),
      documentId ∉ (removeInFlight s documentId).inFlight := by
    intro s documentId hmem
    simp [removeInFlight, List.mem_filter] at hmem
  refine ⟨?_, ?_, ?_⟩
  · intro job rest hq hmem
    simp [processingLoopStep, hq, hmem]
  · intro job rest hq hmem
    simp [processingLoopStep, hq, hmem]
  · intro documentId
    unfold processDocument
    cases hdoc : getDocument st documentId with
    | none => exact hrm _ _
    | some doc =>
      cases hext : env.extract with
      | error e => exact hrm _ _
      | ok res =>
        cases hana : env.analyze with
        | ok a => exact pipelineIndexing_notInFlight env _ documentId _ _ _
        | error e => exact pipelineIndexing_notInFlight env _ documentId _ _ _

/-- C9 witness: a queued job for a document already in flight is
discarded, and a concrete pipeline run ends with its id out of the
in-flight set. -/
theorem C9_witness :
    (processingLoopStep envC5 stateC9 = { stateC9 with queue := [] }) ∧
      1 ∉ ((processDocument envC5 stateC9 1).1).inFlight :=
  ⟨(C9_in_flight_guard envC5 stateC9).1 { documentId := 1, priority := 1 } [] rfl
      (by decide),
    (C9_in_flight_guard envC5 stateC9).2.2 1⟩


/-! ## String utility lemmas for the overlap development -/

/-- `dropWhile` is `drop` of the `takeWhile` length. -/
theorem drop_length_takeWhile (p : Char → Bool) :
    ∀ l : Str, l.drop (l.takeWhile p).length = l.dropWhile p := by
  intro l
  induction l with
  | nil => rfl
  | cons c cs ih =>
    by_cases h : p c <;> simp [List.takeWhile_cons, List.dropWhile_cons, h, ih]

/-- The head of a `dropWhile` result fails the predicate. -/
theorem head_dropWhile_false (p : Char → Bool) :
    ∀ (l : Str) (h : Char), (l.dropWhile p).head? = some h → p h = false := by
  intro l
  induction l with
  | nil => intro h hh; cases hh
  | cons c cs ih =>
    intro h hh
    by_cases hc : p c
    · rw [List.dropWhile_cons, if_pos hc] at hh
      exact ih h hh
    · rw [List.dropWhile_cons, if_neg hc] at hh
      cases hh
      simpa using hc

/-- An empty `takeWhile` means the head fails the predicate. -/
theorem head_of_takeWhile_nil (p : Char → Bool) (l : Str) (hl : l.takeWhile p = [])
    (h : Char) (hh : l.head? = some h) : p h = false := by
  cases l with
  | nil => cases hh
  | cons c cs =>
    cases hh
    by_cases hc : p h
    · rw [List.takeWhile_cons, if_pos hc] at hl
      cases hl
    · simpa using hc

/-- A `drop` is a suffix. -/
theorem suffixOf_drop (l : Str) (n : Nat) : SuffixOf (l.drop n) l :=
  ⟨l.take n, (List.take_append_drop n l).symm⟩

/-- A `dropWhile` is a suffix. -/
theorem suffixOf_dropWhile (p : Char → Bool) (l : Str) : SuffixOf (l.dropWhile p) l :=
  ⟨l.takeWhile p, (List.takeWhile_append_dropWhile p l).symm⟩

/-- Suffixes compose. -/
theorem suffixOf_trans {a b c : Str} (h1 : SuffixOf a b) (h2 : SuffixOf b c) :
    SuffixOf a c := by
  obtain ⟨t1, rfl⟩ := h1
  obtain ⟨t2, rfl⟩ := h2
  exact ⟨t2 ++ t1, (List.append_assoc t2 t1 a).symm⟩

/-- A chain restricts to any suffix. -/
theorem chain_of_suffixOf {R : Char → Char → Prop} {s l : Str}
    (hc : List.Chain' R l) (hs : SuffixOf s l) : List.Chain' R s := by
  obtain ⟨t, rfl⟩ := hs
  exact (List.chain'_append.mp hc).2.1

/-- A chain restricts to the left part of an append. -/
theorem chain_of_prefixOf {R : Char → Char → Prop} {p l : Str}
    (hc : List.Chain' R l) (hp : PrefixOf p l) : List.Chain' R p := by
  obtain ⟨t, rfl⟩ := hp
  exact (List.chain'_append.mp hc).1

/-- `stripTrailingWs` is a left part of the original. -/
theorem prefixOf_stripTrailingWs (l : Str) : PrefixOf (stripTrailingWs l) l := by
  refine ⟨(l.reverse.takeWhile isPySpace).reverse, ?_⟩
  unfold stripTrailingWs
  conv_lhs => rw [← List.reverse_reverse l]
  rw [← List.reverse_append, ← List.takeWhile_append_dropWhile (p := isPySpace)
    (l := l.reverse)]
  simp

/-- The head of a non-empty left part agrees with the whole list. -/
theorem head_of_prefixOf {p l : Str} (hp : PrefixOf p l) {h : Char}
    (hh : p.head? = some h) : l.head? = some h := by
  obtain ⟨t, rfl⟩ := hp
  cases p with
  | nil => cases hh
  | cons c cs => cases hh; rfl

/-- The last element of a right part agrees with the whole list. -/
theorem getLast_of_suffixOf {s l : Str} (hs : SuffixOf s l) {h : Char}
    (hh : s.getLast? = some h) : l.getLast? = some h := by
  obtain ⟨t, rfl⟩ := hs
  cases s with
  | nil => cases hh
  | cons c cs => rw [List.getLast?_append_of_ne_nil]; exact hh; simp

/-- `pyStrip` output is a suffix-of-prefix; its chains descend. -/
theorem chain_pyStrip {R : Char → Char → Prop} {l : Str} (hc : List.Chain' R l) :
    List.Chain' R (pyStrip l) :=
  chain_of_prefixOf (chain_of_suffixOf hc (suffixOf_dropWhile _ l))
    (prefixOf_stripTrailingWs _)

/-- `pyStrip` strips the front. -/
theorem headNonWs_pyStrip (l : Str) : HeadNonWs (pyStrip l) := by
  intro h hh
  have hp := prefixOf_stripTrailingWs (dropWhileWs l)
  exact head_dropWhile_false isPySpace l h (head_of_prefixOf hp hh)

/-- `getLast?` across `reverse`. -/
theorem getLast?_eq_head?_reverse (l : Str) : l.getLast? = l.reverse.head? := by
  cases hl : l.reverse with
  | nil =>
    have : l = [] := by simpa using congrArg List.reverse hl
    simp [this]
  | cons c cs =>
    have : l = (c :: cs).reverse := by
      have := congrArg List.reverse hl
      simpa using this
    subst this
    simp

/-- `pyStrip` strips the back. -/
theorem lastNonWs_pyStrip (l : Str) : LastNonWs (pyStrip l) := by
  intro h hh
  unfold pyStrip stripTrailingWs at hh
  rw [getLast?_eq_head?_reverse, List.reverse_reverse] at hh
  exact head_dropWhile_false isPySpace _ h hh

/-- A list whose ends are already clean is a `pyStrip` fixed point. -/
theorem pyStrip_fix {l : Str} (hh : HeadNonWs l) (hl : LastNonWs l) : pyStrip l = l := by
  have h1 : dropWhileWs l = l := by
    cases l with
    | nil => rfl
    | cons c cs =>
      unfold dropWhileWs
      rw [List.dropWhile_cons, if_neg]
      simp [hh c rfl]
  unfold pyStrip
  rw [h1]
  unfold stripTrailingWs
  cases hr : l.reverse with
  | nil =>
    have : l = [] := by simpa using congrArg List.reverse hr
    simp [this]
  | cons c cs =>
    have hc : isPySpace c = false := by
      apply hl
      rw [getLast?_eq_head?_reverse, hr]
      rfl
    simp only [List.dropWhile_cons, hc, Bool.false_eq_true, if_false]
    rw [← hr, List.reverse_reverse]

/-- `dropWhile` distributes over an append whose left part has a
non-whitespace character. -/
theorem dropWhileWs_append {u : Str} (v : Str) (hu : ∃ x ∈ u, isPySpace x = false) :
    dropWhileWs (u ++ v) = dropWhileWs u ++ v := by
  induction u with
  | nil => simp at hu
  | cons c cs ih =>
    by_cases hc : isPySpace c
    · have : ∃ x ∈ cs, isPySpace x = false := by
        obtain ⟨x, hx, hxf⟩ := hu
        rcases List.mem_cons.mp hx with rfl | hmem
        · rw [hc] at hxf; cases hxf
        · exact ⟨x, hmem, hxf⟩
      unfold dropWhileWs at *
      simp only [List.cons_append, List.dropWhile_cons, hc, if_true]
      exact ih this
    · unfold dropWhileWs
      simp only [List.cons_append, List.dropWhile_cons, hc, Bool.false_eq_true, if_false]

/-- Helper for `stripTrailingWs_append`: the reversed form. -/
theorem stripTrailingWs_append_rev (u : Str) {r : Str}
    (hr : ∃ x ∈ r, isPySpace x = false) :
    (List.dropWhile isPySpace (r.reverse ++ u.reverse)).reverse =
      u ++ (List.dropWhile isPySpace r.reverse).reverse := by
  have hx : ∃ x ∈ r.reverse, isPySpace x = false := by
    obtain ⟨x, hxm, hxf⟩ := hr
    exact ⟨x, List.mem_reverse.mpr hxm, hxf⟩
  have hd := dropWhileWs_append (u := r.reverse) (v := u.reverse) hx
  unfold dropWhileWs at hd
  rw [hd]
  simp

/-- `stripTrailingWs` leaves an append's left part alone when the right
part has a non-whitespace character. -/
theorem stripTrailingWs_append (u : Str) {r : Str} (hr : ∃ x ∈ r, isPySpace x = false) :
    stripTrailingWs (u ++ r) = u ++ stripTrailingWs r := by
  unfold stripTrailingWs
  rw [List.reverse_append]
  exact stripTrailingWs_append_rev u hr

/-- A list with a non-whitespace character does not strip to nothing. -/
theorem dropWhileWs_ne_nil {l : Str} (hl : ∃ x ∈ l, isPySpace x = false) :
    dropWhileWs l ≠ [] := by
  intro h0
  obtain ⟨x, hx, hxf⟩ := hl
  have := List.dropWhile_eq_nil_iff.mp h0 x hx
  rw [hxf] at this
  cases this

/-- In a text without double whitespace, the leading whitespace run has
length at most one. -/
theorem takeWhileWs_length_le_one {l : Str} (hl : noDW l) :
    (l.takeWhile isPySpace).length ≤ 1 := by
  cases l with
  | nil => simp
  | cons c cs =>
    by_cases hc : isPySpace c
    · rw [List.takeWhile_cons, if_pos hc]
      cases cs with
      | nil => simp
      | cons d ds =>
        by_cases hd : isPySpace d
        · exfalso
          have := (List.chain'_cons.mp hl).1
          exact this ⟨hc, hd⟩
        · rw [List.takeWhile_cons, if_neg (by simp [hd])]
          simp
    · rw [List.takeWhile_cons, if_neg (by simp [hc])]
      simp


/-! ## Preprocessing invariants -/

/-- `collapseWs` emits no newline. -/
theorem collapseWs_no_nl : ∀ l : Str, ∀ c ∈ collapseWs l, c ≠ '\n' := by
  intro l
  induction l with
  | nil => intro c hc; cases hc
  | cons a as ih =>
    intro c hc
    cases as with
    | nil =>
      by_cases ha : isPySpace a
      · simp only [collapseWs, ha, if_true, List.mem_singleton] at hc
        subst hc; decide
      · simp only [collapseWs, ha, Bool.false_eq_true, if_false,
          List.mem_singleton] at hc
        subst hc
        intro h0; subst h0; exact ha (by decide)
    | cons d ds =>
      by_cases ha : isPySpace a
      · by_cases hd : isPySpace d
        · simp only [collapseWs, ha, hd, if_true] at hc
          exact ih c hc
        · simp only [collapseWs, ha, hd, if_true, Bool.false_eq_true, if_false] at hc
          rcases List.mem_cons.mp hc with rfl | hmem
          · decide
          · exact ih c hmem
      · simp only [collapseWs, ha, Bool.false_eq_true, if_false] at hc
        rcases List.mem_cons.mp hc with rfl | hmem
        · intro h0; subst h0; exact ha (by decide)
        · exact ih c hmem

/-- The head of `collapseWs (c :: cs)` is `' '` when `c` is whitespace,
`c` itself otherwise. -/
theorem collapseWs_cons_head : ∀ (cs : Str) (c : Char),
    ∃ t, collapseWs (c :: cs) = (if isPySpace c then ' ' else c) :: t := by
  intro cs
  induction cs with
  | nil =>
    intro c
    by_cases hc : isPySpace c
    · exact ⟨[], by simp [collapseWs, hc]⟩
    · exact ⟨[], by simp [collapseWs, hc]⟩
  | cons d ds ih =>
    intro c
    by_cases hc : isPySpace c
    · by_cases hd : isPySpace d
      · obtain ⟨t, ht⟩ := ih d
        rw [if_pos hd] at ht
        exact ⟨t, by simp only [collapseWs, hc, hd, if_true]; exact ht⟩
      · exact ⟨collapseWs (d :: ds), by simp [collapseWs, hc, hd]⟩
    · exact ⟨collapseWs (d :: ds), by simp [collapseWs, hc]⟩

/-- `collapseWs` never leaves two adjacent whitespace characters. -/
theorem collapseWs_noDW : ∀ l : Str, noDW (collapseWs l) := by
  intro l
  induction l with
  | nil => exact List.chain'_nil
  | cons a as ih =>
    cases as with
    | nil =>
      by_cases ha : isPySpace a
      · simp only [collapseWs, ha, if_true]
        exact List.chain'_singleton _
      · simp only [collapseWs, ha, Bool.false_eq_true, if_false]
        exact List.chain'_singleton _
    | cons d ds =>
      by_cases ha : isPySpace a
      · by_cases hd : isPySpace d
        · simp only [collapseWs, ha, hd, if_true]
          exact ih
        · simp only [collapseWs, ha, hd, if_true, Bool.false_eq_true, if_false]
          unfold noDW
          rw [List.chain'_cons']
          refine ⟨?_, ih⟩
          intro y hy
          obtain ⟨t, ht⟩ := collapseWs_cons_head ds d
          rw [ht, if_neg hd] at hy
          simp only [List.head?_cons, Option.mem_def, Option.some.injEq] at hy
          subst hy
          intro hcontra
          exact hd hcontra.2
      · simp only [collapseWs, ha, Bool.false_eq_true, if_false]
        unfold noDW
        rw [List.chain'_cons']
        refine ⟨?_, ih⟩
        intro y _
        intro hcontra
        rw [hcontra.1] at ha
        exact ha rfl

/-- `subNlNlGo` is the identity on newline-free text. -/
theorem subNlNlGo_id : ∀ (fuel : Nat) (l : Str), (∀ c ∈ l, c ≠ '\n') →
    subNlNlGo fuel l = l := by
  intro fuel
  induction fuel with
  | zero =>
    intro l _
    cases l with
    | nil => rfl
    | cons c cs => rfl
  | succ fuel ih =>
    intro l hl
    cases l with
    | nil => rfl
    | cons c cs =>
      rw [subNlNlGo]
      have hc : ¬(c == '\n') = true := by
        simp only [beq_iff_eq]
        exact hl c (List.mem_cons_self c cs)
      rw [if_neg hc]
      rw [ih cs (fun x hx => hl x (List.mem_cons_of_mem c hx))]

/-- `subNlNl` is the identity on newline-free text. -/
theorem subNlNl_id (l : Str) (hl : ∀ c ∈ l, c ≠ '\n') : subNlNl l = l :=
  subNlNlGo_id l.length l hl

/-- `splitLinesGo` on newline-free text yields one line. -/
theorem splitLinesGo_single : ∀ (l cur : Str), (∀ c ∈ l, c ≠ '\n') →
    splitLinesGo l cur = [cur.reverse ++ l] := by
  intro l
  induction l with
  | nil => intro cur _; simp [splitLinesGo]
  | cons c cs ih =>
    intro cur hl
    rw [splitLinesGo]
    have hc : ¬(c == '\n') = true := by
      simp only [beq_iff_eq]
      exact hl c (List.mem_cons_self c cs)
    rw [if_neg hc, ih (c :: cur) (fun x hx => hl x (List.mem_cons_of_mem c hx))]
    simp

/-- `removeNumericLines` on newline-free text either erases the whole
(numeric) text or leaves it unchanged. -/
theorem removeNumericLines_no_nl (l : Str) (hl : ∀ c ∈ l, c ≠ '\n') :
    removeNumericLines l = if isNumericLine l then [] else l := by
  unfold removeNumericLines splitLines
  rw [splitLinesGo_single l [] hl]
  simp only [List.map_cons, List.map_nil, List.reverse_nil, List.nil_append]
  by_cases h : isNumericLine l
  · rw [if_pos h]
    rfl
  · rw [if_neg h]
    rfl

/-- Characters of `subDotsGo` come from the input or are dots. -/
theorem subDotsGo_mem : ∀ (l : Str) (n : Nat), ∀ c ∈ subDotsGo l n, c ∈ l ∨ c = '.' := by
  intro l
  induction l with
  | nil =>
    intro n c hc
    right
    rw [subDotsGo] at hc
    exact List.eq_of_mem_replicate hc
  | cons a as ih =>
    intro n c hc
    rw [subDotsGo] at hc
    by_cases ha : (a == '.') = true
    · rw [if_pos ha] at hc
      rcases ih (n + 1) c hc with hm | hd
      · exact Or.inl (List.mem_cons_of_mem a hm)
      · exact Or.inr hd
    · rw [if_neg ha] at hc
      rcases List.mem_append.mp hc with hd | hm
      · exact Or.inr (List.eq_of_mem_replicate hd)
      · rcases List.mem_cons.mp hm with rfl | hmem
        · exact Or.inl (List.mem_cons_self _ _)
        · rcases ih 0 c hmem with h1 | h2
          · exact Or.inl (List.mem_cons_of_mem a h1)
          · exact Or.inr h2

/-- A whitespace head of `subDotsGo l n` forces `n = 0` and comes from the
head of `l`. -/
theorem subDotsGo_head_ws : ∀ (l : Str) (n : Nat) (h : Char),
    (subDotsGo l n).head? = some h → isPySpace h = true → n = 0 ∧ l.head? = some h := by
  intro l
  induction l with
  | nil =>
    intro n h hh hws
    rw [subDotsGo] at hh
    unfold emitDots at hh
    cases hmin : min n 3 with
    | zero => rw [hmin] at hh; cases hh
    | succ k =>
      rw [hmin] at hh
      simp only [List.replicate_succ, List.head?_cons, Option.some.injEq] at hh
      subst hh
      cases hws
  | cons a as ih =>
    intro n h hh hws
    rw [subDotsGo] at hh
    by_cases ha : (a == '.') = true
    · rw [if_pos ha] at hh
      obtain ⟨hn, _⟩ := ih (n + 1) h hh hws
      cases hn
    · rw [if_neg ha] at hh
      cases hn : n with
      | zero =>
        subst hn
        unfold emitDots at hh
        simp only [Nat.zero_min, List.replicate_zero, List.nil_append,
          List.head?_cons, Option.some.injEq] at hh
        subst hh
        exact ⟨rfl, rfl⟩
      | succ k =>
        subst hn
        unfold emitDots at hh
        exfalso
        have hmin : min (k + 1) 3 = (min k 2) + 1 := by omega
        rw [hmin] at hh
        simp only [List.replicate_succ, List.cons_append, List.head?_cons,
          Option.some.injEq] at hh
        subst hh
        cases hws

/-- `Chain'` over a dot run. -/
theorem chain_emitDots {R : Char → Char → Prop} (hR : R '.' '.') (n : Nat) :
    List.Chain' R (emitDots n) := by
  unfold emitDots
  generalize min n 3 = k
  induction k with
  | zero => exact List.chain'_nil
  | succ k ih =>
    rw [List.replicate_succ, List.chain'_cons']
    refine ⟨?_, ih⟩
    intro y hy
    cases k with
    | zero => cases hy
    | succ m =>
      simp only [List.replicate_succ, List.head?_cons, Option.mem_def,
        Option.some.injEq] at hy
      subst hy
      exact hR

/-- `subDots` preserves the no-double-whitespace invariant. -/
theorem subDotsGo_noDW : ∀ (l : Str) (n : Nat), noDW l → noDW (subDotsGo l n) := by
  have hdot : ∀ (b : Char), ¬(isPySpace '.' = true ∧ isPySpace b = true) := by
    intro b hc
    cases hc.1
  intro l
  induction l with
  | nil =>
    intro n _
    rw [subDotsGo]
    exact chain_emitDots (hdot '.') n
  | cons a as ih =>
    intro n hl
    rw [subDotsGo]
    by_cases ha : (a == '.') = true
    · rw [if_pos ha]
      exact ih (n + 1) (List.Chain'.tail hl)
    · rw [if_neg ha]
      unfold noDW
      rw [List.chain'_append]
      refine ⟨chain_emitDots (hdot '.') n, ?_, ?_⟩
      · rw [List.chain'_cons']
        refine ⟨?_, ih 0 (List.Chain'.tail hl)⟩
        intro y hy
        intro hcontra
        obtain ⟨hn0, hhead⟩ := subDotsGo_head_ws as 0 y hy hcontra.2
        unfold noDW at hl
        rw [List.chain'_cons'] at hl
        exact hl.1 y hhead hcontra
      · intro x hx y hy
        have hxd : x = '.' := List.eq_of_mem_replicate (List.mem_of_mem_getLast? hx)
        subst hxd
        exact hdot y

/-- Members of a left part are members. -/
theorem mem_of_prefixOf {p l : Str} (hp : PrefixOf p l) {x : Char} (hx : x ∈ p) :
    x ∈ l := by
  obtain ⟨t, rfl⟩ := hp
  exact List.mem_append.mpr (Or.inl hx)

/-- Members of a right part are members. -/
theorem mem_of_suffixOf {s l : Str} (hs : SuffixOf s l) {x : Char} (hx : x ∈ s) :
    x ∈ l := by
  obtain ⟨t, rfl⟩ := hs
  exact List.mem_append.mpr (Or.inr hx)

/-- `pyStrip` keeps only original characters. -/
theorem mem_pyStrip {l : Str} {x : Char} (hx : x ∈ pyStrip l) : x ∈ l :=
  mem_of_suffixOf (suffixOf_dropWhile _ l)
    (mem_of_prefixOf (prefixOf_stripTrailingWs (dropWhileWs l)) hx)

/-- The text after the numeric-line pass, before the dot pass. -/
theorem removeNumeric_subNlNl_collapse (l : Str) :
    removeNumericLines (subNlNl (collapseWs l)) = [] ∨
      removeNumericLines (subNlNl (collapseWs l)) = collapseWs l := by
  have h1 := collapseWs_no_nl l
  rw [subNlNl_id _ h1, removeNumericLines_no_nl _ h1]
  by_cases h2 : isNumericLine (collapseWs l)
  · left; rw [if_pos h2]
  · right; rw [if_neg h2]

/-- The preprocessed text has no newline. -/
theorem preprocessText_no_nl (l : Str) : ∀ c ∈ preprocessText l, c ≠ '\n' := by
  intro c hc
  unfold preprocessText at hc
  have hc2 := mem_pyStrip hc
  rcases subDotsGo_mem _ 0 c hc2 with hm | hd
  · rcases removeNumeric_subNlNl_collapse l with h0 | h0
    · rw [h0] at hm
      cases hm
    · rw [h0] at hm
      exact collapseWs_no_nl l c hm
  · subst hd
    decide

/-- The preprocessed text has no adjacent whitespace pair. -/
theorem preprocessText_noDW (l : Str) : noDW (preprocessText l) := by
  unfold preprocessText
  apply chain_pyStrip
  apply subDotsGo_noDW
  rcases removeNumeric_subNlNl_collapse l with h0 | h0 <;> rw [h0]
  · exact List.chain'_nil
  · exact collapseWs_noDW l

/-- The preprocessed text is stripped at both ends. -/
theorem preprocessText_stripped (l : Str) :
    HeadNonWs (preprocessText l) ∧ LastNonWs (preprocessText l) :=
  ⟨headNonWs_pyStrip _, lastNonWs_pyStrip _⟩

end TutUni

namespace TutUni

/-! ## Paragraph splitting on newline-free text -/

/-- `splitParasGo` on newline-free text collects everything into one
fragment. -/
theorem splitParasGo_single : ∀ (fuel : Nat) (l cur : Str), (∀ c ∈ l, c ≠ '\n') →
    splitParasGo fuel l cur = [cur.reverse ++ l] := by
  intro fuel
  induction fuel with
  | zero =>
    intro l cur _
    cases l with
    | nil => simp [splitParasGo]
    | cons c cs => rfl
  | succ fuel ih =>
    intro l cur hl
    cases l with
    | nil => simp [splitParasGo]
    | cons c cs =>
      rw [splitParasGo]
      have hc : ¬(c == '\n') = true := by
        simp only [beq_iff_eq]
        exact hl c (List.mem_cons_self c cs)
      rw [if_neg hc, ih cs (c :: cur) (fun x hx => hl x (List.mem_cons_of_mem c hx))]
      simp

/-- On newline-free text the paragraph splitter returns at most the
single stripped text, kept exactly when longer than 20 characters. -/
theorem splitIntoParagraphs_no_nl (l : Str) (hl : ∀ c ∈ l, c ≠ '\n') :
    splitIntoParagraphs l =
      if 20 < (pyStrip l).length then [pyStrip l] else [] := by
  unfold splitIntoParagraphs splitParasRaw
  rw [splitParasGo_single l.length l [] hl]
  simp only [List.reverse_nil, List.nil_append, List.filterMap]
  by_cases h : 20 < (pyStrip l).length
  · have hne : pyStrip l ≠ [] := by
      intro h0
      rw [h0] at h
      simp at h
    rw [if_pos h]
    simp [hne, h]
  · rw [if_neg h]
    simp [h]

/-! ## Sentence splitter invariants -/

/-- Punctuation characters are not whitespace. -/
theorem punct_not_ws (c : Char) (h : isPunctSB c = true) : isPySpace c = false := by
  unfold isPunctSB at h
  rcases Bool.or_eq_true_iff.mp h with h1 | h2
  · rcases Bool.or_eq_true_iff.mp h1 with h3 | h4
    · rw [beq_iff_eq] at h3; subst h3; decide
    · rw [beq_iff_eq] at h4; subst h4; decide
  · rw [beq_iff_eq] at h2; subst h2; decide

/-- Elements of a `takeWhile` satisfy the predicate. -/
theorem mem_takeWhile_sat (p : Char → Bool) :
    ∀ (l : Str) (x : Char), x ∈ l.takeWhile p → p x = true := by
  intro l
  induction l with
  | nil => intro x hx; cases hx
  | cons c cs ih =>
    intro x hx
    by_cases hc : p c
    · rw [List.takeWhile_cons, if_pos hc] at hx
      rcases List.mem_cons.mp hx with rfl | hmem
      · exact hc
      · exact ih x hmem
    · rw [List.takeWhile_cons, if_neg hc] at hx
      cases hx

/-- A list of punctuation characters contains no boundary pair. -/
theorem chain_noPW_of_all_punct :
    ∀ l : Str, (∀ x ∈ l, isPunctSB x = true) → noPW l := by
  intro l
  induction l with
  | nil => intro _; exact List.chain'_nil
  | cons a as ih =>
    intro hall
    rw [noPW, List.chain'_cons']
    constructor
    · intro y hy
      have hy' : y ∈ as := by
        cases as with
        | nil => cases hy
        | cons b bs =>
          simp only [List.head?_cons, Option.mem_def, Option.some.injEq] at hy
          subst hy
          exact List.mem_cons_self _ _
      intro hcontra
      rw [punct_not_ws y (hall y (List.mem_cons_of_mem a hy'))] at hcontra
      cases hcontra.2
    · exact ih (fun x hx => hall x (List.mem_cons_of_mem a hx))

/-- Unfolding `sentSplitGo` in the punctuation-absorb case. -/
theorem sentSplitGo_punct_absorb (fuel : Nat) (c : Char) (cs cur : Str)
    (hc : isPunctSB c = true)
    (hw : ((cs.drop (cs.takeWhile isPunctSB).length).takeWhile isPySpace).isEmpty = true) :
    sentSplitGo (fuel + 1) (c :: cs) cur =
      sentSplitGo fuel (cs.drop (cs.takeWhile isPunctSB).length)
        ((cs.takeWhile isPunctSB).reverse ++ c :: cur) := by
  simp only [sentSplitGo]
  rw [if_pos hc, if_pos hw]

/-- Unfolding `sentSplitGo` in the boundary (emit) case. -/
theorem sentSplitGo_punct_emit (fuel : Nat) (c : Char) (cs cur : Str)
    (hc : isPunctSB c = true)
    (hw : ((cs.drop (cs.takeWhile isPunctSB).length).takeWhile isPySpace).isEmpty = false) :
    sentSplitGo (fuel + 1) (c :: cs) cur =
      cur.reverse :: sentSplitGo fuel
        ((cs.drop (cs.takeWhile isPunctSB).length).drop
          ((cs.drop (cs.takeWhile isPunctSB).length).takeWhile isPySpace).length) [] := by
  simp only [sentSplitGo]
  rw [if_pos hc, if_neg (by rw [hw]; exact Bool.false_ne_true)]

/-- Unfolding `sentSplitGo` on a plain character. -/
theorem sentSplitGo_plain (fuel : Nat) (c : Char) (cs cur : Str)
    (hc : isPunctSB c = false) :
    sentSplitGo (fuel + 1) (c :: cs) cur = sentSplitGo fuel cs (c :: cur) := by
  simp only [sentSplitGo]
  rw [if_neg (by rw [hc]; exact Bool.false_ne_true)]

/-- After skipping leading whitespace, a head that survives under the
no-punct-before-ws chain (in reversed orientation) is not punctuation. -/
theorem head_dropWhileWs_nonpunct :
    ∀ r : Str,
      List.Chain' (fun a b => ¬(isPunctSB b = true ∧ isPySpace a = true)) r →
      (∀ h, r.head? = some h → isPunctSB h = false) →
      ∀ h, (r.dropWhile isPySpace).head? = some h → isPunctSB h = false := by
  intro r
  induction r with
  | nil => intro _ _ h hh; cases hh
  | cons c cs ih =>
    intro hchain hhead h hh
    by_cases hc : isPySpace c
    · rw [List.dropWhile_cons, if_pos hc] at hh
      refine ih (List.Chain'.tail hchain) ?_ h hh
      intro d hd
      by_cases hpd : isPunctSB d
      · exfalso
        have hd' : d ∈ cs.head? := by rw [Option.mem_def]; exact hd
        exact (List.chain'_cons'.mp hchain).1 d hd' ⟨hpd, hc⟩
      · simpa using hpd
    · rw [List.dropWhile_cons, if_neg hc] at hh
      simp only [List.head?_cons, Option.some.injEq] at hh
      subst hh
      exact hhead c rfl

/-- If a text has no boundary pair and its last character is not
punctuation, stripping preserves the non-punctuation ending. -/
theorem lastNonPunct_pyStrip {l : Str} (hPW : noPW l) (hlast : LastNonPunct l) :
    LastNonPunct (pyStrip l) := by
  intro h hh
  unfold pyStrip stripTrailingWs at hh
  rw [getLast?_eq_head?_reverse, List.reverse_reverse] at hh
  have hPWm : noPW (dropWhileWs l) := chain_of_suffixOf hPW (suffixOf_dropWhile _ l)
  have hlastm : LastNonPunct (dropWhileWs l) := by
    intro x hx
    exact hlast x (getLast_of_suffixOf (suffixOf_dropWhile _ l) hx)
  have hchain : List.Chain'
      (fun a b => ¬(isPunctSB b = true ∧ isPySpace a = true)) (dropWhileWs l).reverse := by
    rw [List.chain'_reverse]
    exact hPWm
  refine head_dropWhileWs_nonpunct (dropWhileWs l).reverse hchain ?_ h hh
  intro x hx
  apply hlastm
  rw [getLast?_eq_head?_reverse]
  exact hx

/-- The sentence-splitter invariant: every emitted fragment contains no
boundary pair, and every fragment with a successor strips to a text whose
last character is not punctuation. -/
theorem sentSplitGo_spec : ∀ (fuel : Nat), ∀ (l cur : Str), l.length ≤ fuel →
    noPW cur.reverse →
    (∀ hc, cur.head? = some hc → isPunctSB hc = true →
      ∀ h2, l.head? = some h2 → isPunctSB h2 = false ∧ isPySpace h2 = false) →
    (∀ f ∈ sentSplitGo fuel l cur, noPW f) ∧
      List.Chain' (fun f _ => LastNonPunct (pyStrip f)) (sentSplitGo fuel l cur) := by
  intro fuel
  induction fuel with
  | zero =>
    intro l cur hfuel h1 _
    cases l with
    | nil =>
      refine ⟨?_, ?_⟩
      · intro f hf
        rw [sentSplitGo] at hf
        simp only [List.mem_singleton] at hf
        subst hf
        exact h1
      · rw [sentSplitGo]
        exact List.chain'_singleton _
    | cons c cs => simp at hfuel
  | succ fuel ih =>
    intro l cur hfuel h1 h2
    cases l with
    | nil =>
      refine ⟨?_, ?_⟩
      · intro f hf
        rw [sentSplitGo] at hf
        simp only [List.mem_singleton] at hf
        subst hf
        exact h1
      · rw [sentSplitGo]
        exact List.chain'_singleton _
    | cons c cs =>
      have hl2 : cs.length ≤ fuel := by
        simpa using hfuel
      by_cases hc : isPunctSB c
      · by_cases hwsr : ((cs.drop (cs.takeWhile isPunctSB).length).takeWhile
            isPySpace).isEmpty = true
        · -- absorb: the punctuation run joins the fragment
          rw [sentSplitGo_punct_absorb fuel c cs cur hc hwsr]
          have hlen : (cs.drop (cs.takeWhile isPunctSB).length).length ≤ fuel := by
            have hd := List.length_drop ((cs.takeWhile isPunctSB).length) cs
            omega
          apply ih _ _ hlen
          · rw [List.reverse_append, List.reverse_reverse, List.reverse_cons,
              List.append_assoc, List.singleton_append]
            rw [noPW, List.chain'_append]
            refine ⟨h1, ?_, ?_⟩
            · apply chain_noPW_of_all_punct
              intro x hx
              rcases List.mem_cons.mp hx with rfl | hmem
              · exact hc
              · exact mem_takeWhile_sat isPunctSB cs x hmem
            · intro x _ y hy
              simp only [List.head?_cons, Option.mem_def, Option.some.injEq] at hy
              subst hy
              intro hcontra
              rw [punct_not_ws c hc] at hcontra
              cases hcontra.2
          · intro hch hch2 hpch h2x hh2
            constructor
            · apply head_dropWhile_false isPunctSB cs h2x
              rw [← drop_length_takeWhile isPunctSB cs]
              exact hh2
            · apply head_of_takeWhile_nil isPySpace _ _ h2x hh2
              rwa [List.isEmpty_iff] at hwsr
        · -- boundary: emit the accumulated fragment
          have hwsr' : ((cs.drop (cs.takeWhile isPunctSB).length).takeWhile
              isPySpace).isEmpty = false := by
            cases hb : ((cs.drop (cs.takeWhile isPunctSB).length).takeWhile
                isPySpace).isEmpty
            · rfl
            · exact absurd hb hwsr
          rw [sentSplitGo_punct_emit fuel c cs cur hc hwsr']
          have hlen2 : ((cs.drop (cs.takeWhile isPunctSB).length).drop
              ((cs.drop (cs.takeWhile isPunctSB).length).takeWhile
                isPySpace).length).length ≤ fuel := by
            have hd1 := List.length_drop ((cs.takeWhile isPunctSB).length) cs
            have hd2 := List.length_drop
              (((cs.drop (cs.takeWhile isPunctSB).length).takeWhile isPySpace).length)
              (cs.drop (cs.takeWhile isPunctSB).length)
            omega
          obtain ⟨ihA, ihB⟩ := ih _ [] hlen2 List.chain'_nil
            (by intro hch hcontra; cases hcontra)
          refine ⟨?_, ?_⟩
          · intro f hf
            rcases List.mem_cons.mp hf with rfl | hmem
            · exact h1
            · exact ihA f hmem
          · rw [List.chain'_cons']
            refine ⟨?_, ihB⟩
            intro y _
            apply lastNonPunct_pyStrip h1
            intro hx hhx
            rw [getLast?_eq_head?_reverse, List.reverse_reverse] at hhx
            by_cases hpx : isPunctSB hx
            · obtain ⟨hna, _⟩ := h2 hx hhx hpx c rfl
              rw [hna] at hc
              cases hc
            · simpa using hpx
      · -- plain character
        have hc' : isPunctSB c = false := by
          cases hb : isPunctSB c
          · rfl
          · exact absurd hb hc
        rw [sentSplitGo_plain fuel c cs cur hc']
        apply ih cs (c :: cur) hl2
        · rw [List.reverse_cons]
          rw [noPW, List.chain'_append]
          refine ⟨h1, List.chain'_singleton _, ?_⟩
          intro x hx y hy
          simp only [List.head?_cons, Option.mem_def, Option.some.injEq] at hy
          subst hy
          intro hcontra
          have hxhd : cur.head? = some x := by
            rw [Option.mem_def] at hx
            rw [← List.getLast?_reverse]
            exact hx
          obtain ⟨_, hwc⟩ := h2 x hxhd hcontra.1 c rfl
          rw [hwc] at hcontra
          cases hcontra.2
        · intro hch hch2 hpch h2x hh2
          simp only [List.head?_cons, Option.some.injEq] at hch2
          subst hch2
          rw [hc'] at hpch
          cases hpch

/-- Every fragment emitted by `sentSplitGo` is an infix of the full text
(accumulator prefix plus remaining input). -/
theorem sentSplitGo_infix : ∀ (fuel : Nat), ∀ (l cur : Str),
    ∀ f ∈ sentSplitGo fuel l cur, ∃ u v, cur.reverse ++ l = u ++ (f ++ v) := by
  intro fuel
  induction fuel with
  | zero =>
    intro l cur f hf
    cases l with
    | nil =>
      rw [sentSplitGo] at hf
      simp only [List.mem_singleton] at hf
      subst hf
      exact ⟨[], [], by simp⟩
    | cons c cs =>
      have he : sentSplitGo 0 (c :: cs) cur = [cur.reverse ++ (c :: cs)] := rfl
      rw [he] at hf
      simp only [List.mem_singleton] at hf
      subst hf
      exact ⟨[], [], by simp⟩
  | succ fuel ih =>
    intro l cur f hf
    cases l with
    | nil =>
      rw [sentSplitGo] at hf
      simp only [List.mem_singleton] at hf
      subst hf
      exact ⟨[], [], by simp⟩
    | cons c cs =>
      by_cases hc : isPunctSB c
      · by_cases hwsr : ((cs.drop (cs.takeWhile isPunctSB).length).takeWhile
            isPySpace).isEmpty = true
        · rw [sentSplitGo_punct_absorb fuel c cs cur hc hwsr] at hf
          obtain ⟨u, v, huv⟩ := ih _ _ f hf
          refine ⟨u, v, ?_⟩
          rw [← huv, List.reverse_append, List.reverse_reverse, List.reverse_cons,
            List.append_assoc, List.append_assoc, drop_length_takeWhile,
            List.takeWhile_append_dropWhile, List.singleton_append]
        · have hwsr' : ((cs.drop (cs.takeWhile isPunctSB).length).takeWhile
              isPySpace).isEmpty = false := by
            cases hb : ((cs.drop (cs.takeWhile isPunctSB).length).takeWhile
                isPySpace).isEmpty
            · rfl
            · exact absurd hb hwsr
          rw [sentSplitGo_punct_emit fuel c cs cur hc hwsr'] at hf
          rcases List.mem_cons.mp hf with rfl | hmem
          · exact ⟨[], c :: cs, by simp⟩
          · obtain ⟨u, v, huv⟩ := ih _ _ f hmem
            simp only [List.reverse_nil, List.nil_append] at huv
            have hsfx : SuffixOf ((cs.drop (cs.takeWhile isPunctSB).length).drop
                ((cs.drop (cs.takeWhile isPunctSB).length).takeWhile
                  isPySpace).length) (c :: cs) := by
              apply suffixOf_trans (suffixOf_drop _ _)
              apply suffixOf_trans (suffixOf_drop _ _)
              exact ⟨[c], rfl⟩
            obtain ⟨w, hw⟩ := hsfx
            refine ⟨cur.reverse ++ w ++ u, v, ?_⟩
            rw [hw, huv]
            simp [List.append_assoc]
      · have hc' : isPunctSB c = false := by
          cases hb : isPunctSB c
          · rfl
          · exact absurd hb hc
        rw [sentSplitGo_plain fuel c cs cur hc'] at hf
        obtain ⟨u, v, huv⟩ := ih _ _ f hf
        refine ⟨u, v, ?_⟩
        rw [← huv, List.reverse_cons, List.append_assoc, List.singleton_append]

/-- Chain transport through `filterMap` for element-only relations. -/
theorem chain_filterMap_prop {α β : Type} (R : α → Prop) (Q : β → Prop)
    (g : α → Option β) (hg : ∀ a b, g a = some b → R a → Q b) :
    ∀ F : List α, List.Chain' (fun a _ => R a) F →
      List.Chain' (fun b _ => Q b) (F.filterMap g) := by
  intro F
  induction F with
  | nil => intro _; simp
  | cons a F' ih =>
    intro hch
    rw [List.filterMap_cons]
    cases hga : g a with
    | none => exact ih (List.Chain'.tail hch)
    | some b =>
      rw [List.chain'_cons']
      refine ⟨?_, ih (List.Chain'.tail hch)⟩
      intro y hy
      have hne : F' ≠ [] := by
        intro h0
        subst h0
        simp at hy
      have hRa : R a := by
        cases hF' : F' with
        | nil => exact absurd hF' hne
        | cons a2 as =>
          subst hF'
          exact (List.chain'_cons'.mp hch).1 a2 rfl
      exact hg a b hga hRa

/-- `_split_into_sentences` on a boundary-free double-whitespace-free
paragraph: every produced sentence is clean, and every sentence with a
successor ends in a non-punctuation character. -/
theorem splitIntoSentences_clean (p : Str) (hDW : noDW p) :
    (∀ s ∈ splitIntoSentences p, CleanText s) ∧
      List.Chain' (fun s _ => LastNonPunct s) (splitIntoSentences p) := by
  obtain ⟨hA, hB⟩ := sentSplitGo_spec p.length p [] le_rfl List.chain'_nil
    (by intro hch hcontra; cases hcontra)
  have hInfix : ∀ f ∈ sentSplitGo p.length p [], ∃ u v, p = u ++ (f ++ v) := by
    intro f hf
    obtain ⟨u, v, huv⟩ := sentSplitGo_infix p.length p [] f hf
    simp only [List.reverse_nil, List.nil_append] at huv
    exact ⟨u, v, huv⟩
  constructor
  · intro s hs
    unfold splitIntoSentences splitSentRaw at hs
    rw [List.mem_filterMap] at hs
    obtain ⟨f, hf, hgf⟩ := hs
    dsimp only at hgf
    have hsplit : pyStrip f = s ∧ pyStrip f ≠ [] := by
      by_cases hcond : (decide (pyStrip f ≠ []) && decide (10 < (pyStrip f).length)) = true
      · rw [if_pos hcond] at hgf
        have h1 := Bool.and_eq_true_iff.mp hcond
        refine ⟨by injection hgf, ?_⟩
        exact of_decide_eq_true h1.1
      · rw [if_neg hcond] at hgf
        cases hgf
    obtain ⟨rfl, hne⟩ := hsplit
    have hfDW : noDW f := by
      obtain ⟨u, v, huv⟩ := hInfix f hf
      have hsf : SuffixOf (f ++ v) p := ⟨u, huv⟩
      exact chain_of_prefixOf (chain_of_suffixOf hDW hsf) ⟨v, rfl⟩
    exact ⟨hne, chain_pyStrip hfDW, chain_pyStrip (hA f hf),
      headNonWs_pyStrip f, lastNonWs_pyStrip f⟩
  · unfold splitIntoSentences splitSentRaw
    refine chain_filterMap_prop (fun f => LastNonPunct (pyStrip f)) LastNonPunct _
      ?_ _ hB
    intro a b hab hRa
    dsimp only at hab
    by_cases hcond : (decide (pyStrip a ≠ []) && decide (10 < (pyStrip a).length)) = true
    · rw [if_pos hcond] at hab
      have : pyStrip a = b := by injection hab
      rw [← this]
      exact hRa
    · rw [if_neg hcond] at hab
      cases hab

end TutUni

namespace TutUni

/-! ## Append and option head helpers -/

/-- Head of an append with non-empty left part. -/
theorem head?_append_left {l : Str} (r : Str) (hl : l ≠ []) :
    (l ++ r).head? = l.head? := by
  cases l with
  | nil => exact absurd rfl hl
  | cons c cs => rfl

/-- Last of an append with non-empty right part. -/
theorem getLast?_append_right (l : Str) {r : Str} (hr : r ≠ []) :
    (l ++ r).getLast? = r.getLast? := by
  rw [getLast?_eq_head?_reverse, getLast?_eq_head?_reverse r, List.reverse_append]
  apply head?_append_left
  intro h0
  exact hr (by simpa using congrArg List.reverse h0)

/-- A head is a member. -/
theorem mem_of_head?_eq {l : Str} {h : Char} (hh : l.head? = some h) : h ∈ l := by
  cases l with
  | nil => cases hh
  | cons c cs =>
    simp only [List.head?_cons, Option.some.injEq] at hh
    subst hh
    exact List.mem_cons_self _ _

/-- A non-empty list has a last element. -/
theorem getLast?_of_ne_nil {l : Str} (hl : l ≠ []) : ∃ z, l.getLast? = some z := by
  rw [getLast?_eq_head?_reverse]
  cases hr : l.reverse with
  | nil => exact absurd (by simpa using congrArg List.reverse hr) hl
  | cons c cs => exact ⟨c, rfl⟩

/-- `PrefixOf` agrees with the boolean `isPrefixOf`. -/
theorem prefixOf_iff_isPrefixOf : ∀ (p l : Str), PrefixOf p l ↔ p.isPrefixOf l = true := by
  intro p
  induction p with
  | nil =>
    intro l
    constructor
    · intro _
      cases l with
      | nil => rfl
      | cons b bs => rfl
    · intro _; exact ⟨l, rfl⟩
  | cons a as ih =>
    intro l
    cases l with
    | nil =>
      constructor
      · intro h
        obtain ⟨t, ht⟩ := h
        exact absurd ht (by simp)
      · intro h
        simp [List.isPrefixOf] at h
    | cons b bs =>
      simp only [List.isPrefixOf]
      constructor
      · intro h
        obtain ⟨t, ht⟩ := h
        rw [List.cons_append] at ht
        injection ht with h1 h2
        subst h1
        rw [Bool.and_eq_true]
        exact ⟨by simp, (ih bs).mp ⟨t, h2⟩⟩
      · intro h
        rw [Bool.and_eq_true] at h
        obtain ⟨h1, h2⟩ := h
        rw [beq_iff_eq] at h1
        subst h1
        obtain ⟨t, ht⟩ := (ih bs).mpr h2
        exact ⟨t, by rw [List.cons_append, ← ht]⟩

/-! ## The overlap window on boundary-free text -/

/-- A boundary-free text has no `[.!?]\s` match. -/
theorem findPunctWs_none : ∀ {w : Str}, noPW w → findPunctWs w = none := by
  intro w
  induction w with
  | nil => intro _; rfl
  | cons a l ih =>
    intro hw
    cases l with
    | nil => rfl
    | cons b rest =>
      have hab : ¬(isPunctSB a = true ∧ isPySpace b = true) :=
        (List.chain'_cons.mp hw).1
      have hcond : (isPunctSB a && isPySpace b) = false := by
        cases hpa : isPunctSB a
        · rfl
        · cases hpb : isPySpace b
          · rfl
          · exact absurd ⟨hpa, hpb⟩ hab
      simp only [findPunctWs]
      rw [if_neg (by rw [hcond]; exact Bool.false_ne_true),
        ih (List.chain'_cons.mp hw).2]
      rfl

/-- On boundary-free text the overlap window is the raw trailing
substring: no forward trimming happens. -/
theorem getOverlapText_noPW {t : Str} (n : Nat) (hPW : noPW t) :
    getOverlapText t n = takeLast n t := by
  simp only [getOverlapText]
  by_cases h : t.length ≤ n
  · rw [if_pos h]
    unfold takeLast
    rw [Nat.sub_eq_zero_of_le h, List.drop_zero]
  · rw [if_neg h]
    have hnone : findPunctWs (takeLast n t) = none :=
      findPunctWs_none (chain_of_suffixOf hPW (suffixOf_drop t (t.length - n)))
    rw [hnone]

/-! ## Stripping an overlap-joined text -/

/-- Stripping a text of the form `o ++ ' ' :: t` where both sides hold a
non-whitespace character only strips the two outer ends. -/
theorem pyStrip_append_mid (o t : Str) (ho : ∃ x ∈ o, isPySpace x = false)
    (ht : ∃ x ∈ t, isPySpace x = false) :
    pyStrip (o ++ ' ' :: t) = dropWhileWs o ++ ' ' :: stripTrailingWs t := by
  unfold pyStrip
  rw [dropWhileWs_append _ ho]
  have h1 : dropWhileWs o ++ ' ' :: t = (dropWhileWs o ++ [' ']) ++ t := by
    rw [List.append_assoc]
    rfl
  rw [h1, stripTrailingWs_append _ ht, List.append_assoc]
  rfl

/-- The truncate-then-strip rewrite of `_validate_and_cleanup_chunks`
keeps the stripped overlap prefix intact. -/
theorem cleanup_take_mid (m : Nat) (o t : Str) (ho : ∃ x ∈ o, isPySpace x = false)
    (hol : o.length + 1 < m) (ht : t ≠ []) (hth : HeadNonWs t) :
    ∃ r, pyStrip (if m < (o ++ ' ' :: t).length then (o ++ ' ' :: t).take m
        else o ++ ' ' :: t) = dropWhileWs o ++ ' ' :: r := by
  have hmemt : ∀ t' : Str, t' ≠ [] → t'.head? = t.head? → ∃ x ∈ t', isPySpace x = false := by
    intro t' hne hhd
    cases t' with
    | nil => exact absurd rfl hne
    | cons c cs =>
      cases t with
      | nil => exact absurd rfl ht
      | cons d ds =>
        simp only [List.head?_cons, Option.some.injEq] at hhd
        subst hhd
        exact ⟨c, List.mem_cons_self _ _, hth c rfl⟩
  by_cases hm : m < (o ++ ' ' :: t).length
  · rw [if_pos hm]
    have hkpos : 1 ≤ m - o.length - 1 + 1 := by omega
    have htk : (o ++ ' ' :: t).take m = o ++ ' ' :: t.take (m - o.length - 1) := by
      rw [List.take_append_eq_append_take, List.take_of_length_le (by omega)]
      congr 1
      have hsplit : m - o.length = (m - o.length - 1) + 1 := by omega
      conv_lhs => rw [hsplit]
      rw [List.take_succ_cons]
    rw [htk]
    have htne : t.take (m - o.length - 1) ≠ [] := by
      cases t with
      | nil => exact absurd rfl ht
      | cons d ds =>
        rw [show m - o.length - 1 = (m - o.length - 1 - 1) + 1 from by
          simp only [List.length_append, List.length_cons] at hm
          omega]
        rw [List.take_succ_cons]
        exact List.cons_ne_nil _ _
    have hthd : (t.take (m - o.length - 1)).head? = t.head? := by
      cases t with
      | nil => exact absurd rfl ht
      | cons d ds =>
        rw [show m - o.length - 1 = (m - o.length - 1 - 1) + 1 from by
          simp only [List.length_append, List.length_cons] at hm
          omega]
        rw [List.take_succ_cons]
        rfl
    rw [pyStrip_append_mid o _ ho (hmemt _ htne hthd)]
    exact ⟨_, rfl⟩
  · rw [if_neg hm]
    rw [pyStrip_append_mid o t ho (hmemt t ht rfl)]
    exact ⟨_, rfl⟩

/-! ## Validation membership and overlap indexing -/

/-- A kept chunk appears (cleaned) in the validated list. -/
theorem mem_validateAndCleanup {cfg : ChunkerConfig} {c : TextChunk} :
    ∀ {l : List TextChunk}, c ∈ l → keepChunk cfg c = true →
      cleanupChunk cfg c ∈ validateAndCleanupChunks cfg l := by
  intro l
  induction l with
  | nil => intro hc _; cases hc
  | cons d ds ih =>
    intro hc hk
    rcases List.mem_cons.mp hc with rfl | hmem
    · rw [validateAndCleanupChunks, if_pos hk]
      exact List.mem_cons_self _ _
    · rw [validateAndCleanupChunks]
      by_cases hkd : keepChunk cfg d = true
      · rw [if_pos hkd]
        exact List.mem_cons_of_mem _ (ih hmem hk)
      · rw [if_neg hkd]
        exact ih hmem hk

/-- Indexing the mapped zip underlying `_apply_overlap`. -/
theorem zipMap_nth (cfg : ChunkerConfig) :
    ∀ (l : List TextChunk) (c0 : TextChunk) (i : Nat), i < l.length →
      ((List.zip (c0 :: l) l).map (fun pc => overlapPair cfg pc.1 pc.2)).getD i dummyChunk =
        overlapPair cfg ((c0 :: l).getD i dummyChunk) (l.getD i dummyChunk) := by
  intro l
  induction l with
  | nil => intro c0 i hi; simp at hi
  | cons c1 l' ih =>
    intro c0 i hi
    cases i with
    | zero => rfl
    | succ j =>
      rw [List.zip_cons_cons, List.map_cons, List.getD_cons_succ, List.getD_cons_succ,
        List.getD_cons_succ]
      exact ih c1 j (by simpa using hi)

/-- `_apply_overlap` rebuilds chunk `i + 1` from the pair
`(chunks[i], chunks[i+1])` of the input list. -/
theorem applyOverlap_nth (cfg : ChunkerConfig) (chunks : List TextChunk) (i : Nat)
    (h : i + 1 < chunks.length) :
    nthChunk (applyOverlap cfg chunks) (i + 1) =
      overlapPair cfg (nthChunk chunks i) (nthChunk chunks (i + 1)) := by
  unfold applyOverlap nthChunk
  rw [if_neg (by omega : ¬chunks.length ≤ 1)]
  cases chunks with
  | nil => simp at h
  | cons c0 rest =>
    show ((c0 :: (List.zip (c0 :: rest) rest).map
        (fun pc => overlapPair cfg pc.1 pc.2)).getD (i + 1) dummyChunk) =
      overlapPair cfg ((c0 :: rest).getD i dummyChunk) ((c0 :: rest).getD (i + 1) dummyChunk)
    rw [List.getD_cons_succ, zipMap_nth cfg rest c0 i (by simpa using h),
      List.getD_cons_succ]

/-- `_apply_overlap` keeps the chunk count. -/
theorem applyOverlap_length (cfg : ChunkerConfig) (chunks : List TextChunk) :
    (applyOverlap cfg chunks).length = chunks.length := by
  unfold applyOverlap
  by_cases h : chunks.length ≤ 1
  · rw [if_pos h]
  · rw [if_neg h]
    cases chunks with
    | nil => rfl
    | cons c0 rest =>
      simp [List.length_zip]

/-- The chunk selected by `nthChunk` at an in-range index is a member. -/
theorem nthChunk_mem {l : List TextChunk} {i : Nat} (h : i < l.length) :
    nthChunk l i ∈ l := by
  unfold nthChunk
  rw [List.getD_eq_getElem l dummyChunk h]
  exact List.getElem_mem h

end TutUni

namespace TutUni

/-! ## The sentence-accumulation invariant -/

/-- Joining a clean accumulation and a clean sentence with a single space
stays clean, provided the accumulation does not end in punctuation. -/
theorem cleanText_join {cur s : Str} (hcur : CleanText cur) (hs : CleanText s)
    (hlp : LastNonPunct cur) :
    CleanText (cur ++ ' ' :: s) ∧
      (LastNonPunct s → LastNonPunct (cur ++ ' ' :: s)) := by
  obtain ⟨hne, hDW, hPW, hH, hL⟩ := hcur
  obtain ⟨hsne, hsDW, hsPW, hsH, hsL⟩ := hs
  have hlastj : (cur ++ ' ' :: s).getLast? = s.getLast? := by
    rw [getLast?_append_right cur (List.cons_ne_nil _ _),
      show (' ' :: s) = [' '] ++ s from rfl, getLast?_append_right [' '] hsne]
  refine ⟨⟨?_, ?_, ?_, ?_, ?_⟩, ?_⟩
  · simp
  · apply List.chain'_append.mpr
    refine ⟨hDW, ?_, ?_⟩
    · apply List.chain'_cons'.mpr
      refine ⟨?_, hsDW⟩
      intro y hy
      have hyh : isPySpace y = false := hsH y hy
      intro hcontra
      rw [hyh] at hcontra
      cases hcontra.2
    · intro x hx y hy
      have hxw : isPySpace x = false := hL x hx
      intro hcontra
      rw [hxw] at hcontra
      cases hcontra.1
  · apply List.chain'_append.mpr
    refine ⟨hPW, ?_, ?_⟩
    · apply List.chain'_cons'.mpr
      refine ⟨?_, hsPW⟩
      intro y _
      intro hcontra
      have : isPunctSB ' ' = false := by decide
      rw [this] at hcontra
      cases hcontra.1
    · intro x hx y hy
      have hxp : isPunctSB x = false := hlp x hx
      intro hcontra
      rw [hxp] at hcontra
      cases hcontra.1
  · intro h hh
    rw [head?_append_left _ hne] at hh
    exact hH h hh
  · intro h hh
    rw [hlastj] at hh
    exact hsL h hh
  · intro hslp h hh
    rw [hlastj] at hh
    exact hslp h hh

/-- Every chunk emitted by the sentence-accumulation loop has clean text,
given clean input sentences chained by non-punctuation endings. -/
theorem accumulateSentences_clean (cfg : ChunkerConfig) (docId : Nat) (filename : Str)
    (ty : ChunkType) :
    ∀ (S : List Str), (∀ s ∈ S, CleanText s) →
      List.Chain' (fun s _ => LastNonPunct s) S →
      ∀ (cur : Str) (curStart : Nat) (acc : List TextChunk),
      (cur = [] ∨ (CleanText cur ∧ (S ≠ [] → LastNonPunct cur))) →
      (∀ c ∈ acc, CleanText c.text) →
      ∀ c ∈ accumulateSentences cfg docId filename ty S cur curStart acc,
        CleanText c.text := by
  intro S
  induction S with
  | nil =>
    intro _ _ cur curStart acc hcur hacc c hc
    simp only [accumulateSentences] at hc
    split at hc
    · next hcond =>
      rw [Bool.and_eq_true] at hcond
      have hcne : cur ≠ [] := of_decide_eq_true hcond.1
      rcases List.mem_append.mp hc with hm | hm
      · exact hacc c hm
      · rcases hcur with rfl | ⟨hclean, _⟩
        · exact absurd rfl hcne
        · simp only [List.mem_singleton] at hm
          subst hm
          show CleanText (pyStrip cur)
          rw [pyStrip_fix hclean.2.2.2.1 hclean.2.2.2.2]
          exact hclean
    · next hcond => exact hacc c hc
  | cons s ss ih =>
    intro hS hchain cur curStart acc hcur hacc c hc
    have hsClean : CleanText s := hS s (List.mem_cons_self _ _)
    have hSs : ∀ x ∈ ss, CleanText x := fun x hx => hS x (List.mem_cons_of_mem _ hx)
    have hchain' : List.Chain' (fun x _ => LastNonPunct x) ss := List.Chain'.tail hchain
    have hlp_s : ss ≠ [] → LastNonPunct s := by
      intro hne
      cases hss : ss with
      | nil => exact absurd hss hne
      | cons s2 ss2 =>
        subst hss
        exact (List.chain'_cons'.mp hchain).1 s2 rfl
    simp only [accumulateSentences] at hc
    split at hc
    · next hcond =>
      rw [Bool.and_eq_true] at hcond
      have hcne : cur ≠ [] := of_decide_eq_true hcond.2
      rcases hcur with rfl | ⟨hclean, hlpc⟩
      · exact absurd rfl hcne
      · refine ih hSs hchain' s _ _ (Or.inr ⟨hsClean, hlp_s⟩) ?_ c hc
        intro d hd
        rcases List.mem_append.mp hd with hm | hm
        · exact hacc d hm
        · simp only [List.mem_singleton] at hm
          subst hm
          show CleanText (pyStrip cur)
          rw [pyStrip_fix hclean.2.2.2.1 hclean.2.2.2.2]
          exact hclean
    · next hcond =>
      by_cases hce : cur.isEmpty = true
      · rw [if_pos hce] at hc
        exact ih hSs hchain' s curStart acc (Or.inr ⟨hsClean, hlp_s⟩) hacc c hc
      · rw [if_neg hce] at hc
        have hcne : cur ≠ [] := by
          intro h0
          subst h0
          exact hce rfl
        rcases hcur with rfl | ⟨hclean, hlpc⟩
        · exact absurd rfl hcne
        · have hlpcur : LastNonPunct cur := hlpc (by simp)
          obtain ⟨hj1, hj2⟩ := cleanText_join hclean hsClean hlpcur
          exact ih hSs hchain' (cur ++ ' ' :: s) curStart acc
            (Or.inr ⟨hj1, fun hss => hj2 (hlp_s hss)⟩) hacc c hc

/-- The pre-overlap chunk list either has at most one element (the
whole-paragraph path) or consists of clean texts (the sentence
accumulation path).  There is always at most one paragraph, because
preprocessing removes every newline. -/
theorem preOverlapChunks_clean (text : Str) (docId : Nat) (filename : Str) :
    (preOverlapChunks defaultConfig text docId filename).length ≤ 1 ∨
      ∀ c ∈ preOverlapChunks defaultConfig text docId filename, CleanText c.text := by
  have hfix : pyStrip (preprocessText text) = preprocessText text :=
    pyStrip_fix (preprocessText_stripped text).1 (preprocessText_stripped text).2
  unfold preOverlapChunks
  rw [splitIntoParagraphs_no_nl _ (preprocessText_no_nl text), hfix]
  by_cases h20 : 20 < (preprocessText text).length
  · rw [if_pos h20]
    simp only [paragraphLoop, hfix]
    by_cases hmin : (preprocessText text).length < defaultConfig.minChunkSize
    · rw [if_pos hmin]
      left
      simp
    · rw [if_neg hmin]
      simp only [paragraphLoop, List.nil_append]
      unfold createChunksFromParagraph
      by_cases hsz : (preprocessText text).length ≤ defaultConfig.chunkSize
      · rw [if_pos hsz]
        left
        simp
      · rw [if_neg hsz]
        right
        obtain ⟨hsc, hschain⟩ :=
          splitIntoSentences_clean (preprocessText text) (preprocessText_noDW text)
        exact accumulateSentences_clean defaultConfig docId filename _
          (splitIntoSentences (preprocessText text)) hsc hschain [] 0 []
          (Or.inl rfl) (by intro d hd; cases hd)
  · rw [if_neg h20]
    left
    simp [paragraphLoop]

end TutUni

namespace TutUni

/-! ## The overlap pair specification -/

/-- For a clean predecessor of at least `overlap_size` characters and a
clean successor, the overlap stage prepends the raw trailing window and
the validation stage keeps the chunk, whose final text starts with the
leading-whitespace-stripped window. -/
theorem overlapPair_clean_spec (cfg : ChunkerConfig) (a b : TextChunk)
    (hCa : CleanText a.text) (hCb : CleanText b.text)
    (hlen : cfg.overlapSize ≤ a.text.length)
    (h1 : 1 ≤ cfg.overlapSize)
    (hmin : cfg.minChunkSize ≤ cfg.overlapSize)
    (hmax : cfg.overlapSize + 1 < cfg.maxChunkSize) :
    ∃ s : Str, s ≠ [] ∧ SuffixOf s a.text ∧
      s = dropWhileWs (getOverlapText a.text cfg.overlapSize) ∧
      keepChunk cfg (overlapPair cfg a b) = true ∧
      PrefixOf s (cleanupChunk cfg (overlapPair cfg a b)).text := by
  obtain ⟨hane, haDW, haPW, haH, haL⟩ := hCa
  obtain ⟨hbne, hbDW, hbPW, hbH, hbL⟩ := hCb
  have hG1 : getOverlapText a.text cfg.overlapSize = takeLast cfg.overlapSize a.text :=
    getOverlapText_noPW _ haPW
  have holen : (takeLast cfg.overlapSize a.text).length = cfg.overlapSize := by
    unfold takeLast
    rw [List.length_drop]
    omega
  have hone : takeLast cfg.overlapSize a.text ≠ [] := by
    intro h0
    rw [h0] at holen
    simp only [List.length_nil] at holen
    omega
  have hsfx : SuffixOf (takeLast cfg.overlapSize a.text) a.text := suffixOf_drop _ _
  have ho_mem : ∃ x ∈ takeLast cfg.overlapSize a.text, isPySpace x = false := by
    obtain ⟨z, hz⟩ := getLast?_of_ne_nil hone
    exact ⟨z, List.mem_of_mem_getLast? (Option.mem_def.mpr hz),
      haL z (getLast_of_suffixOf hsfx hz)⟩
  have hoDW : noDW (takeLast cfg.overlapSize a.text) := chain_of_suffixOf haDW hsfx
  have hbmem : ∃ x ∈ b.text, isPySpace x = false := by
    cases hbt : b.text with
    | nil => exact absurd hbt hbne
    | cons d ds =>
      refine ⟨d, List.mem_cons_self _ _, ?_⟩
      exact hbH d (by rw [hbt]; rfl)
  have hb1 : (overlapPair cfg a b).text =
      takeLast cfg.overlapSize a.text ++ ' ' :: b.text := by
    simp only [overlapPair, hG1]
    rw [if_pos hone]
  have hkeep : keepChunk cfg (overlapPair cfg a b) = true := by
    unfold keepChunk
    rw [hb1, pyStrip_append_mid _ _ ho_mem hbmem]
    have htw := takeWhileWs_length_le_one hoDW
    have hdrop : (dropWhileWs (takeLast cfg.overlapSize a.text)).length =
        (takeLast cfg.overlapSize a.text).length -
          ((takeLast cfg.overlapSize a.text).takeWhile isPySpace).length := by
      unfold dropWhileWs
      rw [← drop_length_takeWhile isPySpace, List.length_drop]
    have hlength : ¬((dropWhileWs (takeLast cfg.overlapSize a.text) ++
        ' ' :: stripTrailingWs b.text).length < cfg.minChunkSize) := by
      rw [List.length_append, List.length_cons]
      omega
    simpa using hlength
  obtain ⟨r, hr⟩ := cleanup_take_mid cfg.maxChunkSize (takeLast cfg.overlapSize a.text)
    b.text ho_mem (by rw [holen]; exact hmax) hbne hbH
  have hctext : (cleanupChunk cfg (overlapPair cfg a b)).text =
      pyStrip (if cfg.maxChunkSize < (takeLast cfg.overlapSize a.text ++ ' ' :: b.text).length
        then (takeLast cfg.overlapSize a.text ++ ' ' :: b.text).take cfg.maxChunkSize
        else takeLast cfg.overlapSize a.text ++ ' ' :: b.text) := by
    simp only [cleanupChunk, hb1]
  refine ⟨dropWhileWs (takeLast cfg.overlapSize a.text), dropWhileWs_ne_nil ho_mem,
    suffixOf_trans (suffixOf_dropWhile _ _) hsfx, by rw [hG1], hkeep, ?_⟩
  rw [hctext, hr]
  exact ⟨' ' :: r, rfl⟩

end TutUni

namespace TutUni

/-! ## Claim C3 -/

set_option maxRecDepth 10000 in
/-- C3 counterexample: on the `c3text` document the second returned
chunk's text does not start with the overlap window taken from the first
pre-overlap chunk's original text: the window begins with a whitespace
character, which the final cleanup strips from the rebuilt chunk, so the
literal claim fails. -/
theorem C3_counterexample :
    ¬ PrefixOf
        (getOverlapText
          (nthChunk (preOverlapChunks defaultConfig c3text 1 exFilename) 0).text
          defaultConfig.overlapSize)
        (nthChunk (chunkText defaultConfig c3text 1 exFilename) 1).text := by
  rw [prefixOf_iff_isPrefixOf]
  decide

/-- C3 (amended): for adjacent pre-overlap chunks `i` and `i + 1` — such
chunks always come from the same paragraph split, because preprocessing
leaves at most one paragraph — where chunk `i`'s original text is at
least `overlap_size` characters long, the returned list contains the
chunk rebuilt from chunk `i + 1`, and that chunk's text starts with a
non-empty suffix of chunk `i`'s original text, namely the raw trailing
`overlap_size`-character window with its leading whitespace stripped (no
sentence boundary can occur inside a chunk of one paragraph, so the
forward trimming of `_get_overlap_text` never fires; the final cleanup
strips the window's leading whitespace). -/
theorem C3_amended_overlap (text : Str) (docId : Nat) (filename : Str) (i : Nat)
    (hadj : i + 1 < (preOverlapChunks defaultConfig text docId filename).length)
    (hlen : defaultConfig.overlapSize ≤
      (nthChunk (preOverlapChunks defaultConfig text docId filename) i).text.length) :
    ∃ s : Str, s ≠ [] ∧
      SuffixOf s (nthChunk (preOverlapChunks defaultConfig text docId filename) i).text ∧
      s = dropWhileWs (getOverlapText
        (nthChunk (preOverlapChunks defaultConfig text docId filename) i).text
        defaultConfig.overlapSize) ∧
      cleanupChunk defaultConfig (overlapPair defaultConfig
          (nthChunk (preOverlapChunks defaultConfig text docId filename) i)
          (nthChunk (preOverlapChunks defaultConfig text docId filename) (i + 1)))
        ∈ chunkText defaultConfig text docId filename ∧
      PrefixOf s (cleanupChunk defaultConfig (overlapPair defaultConfig
          (nthChunk (preOverlapChunks defaultConfig text docId filename) i)
          (nthChunk (preOverlapChunks defaultConfig text docId filename) (i + 1)))).text := by
  rcases preOverlapChunks_clean text docId filename with hle | hcl
  · omega
  · have hiLt : i < (preOverlapChunks defaultConfig text docId filename).length := by omega
    obtain ⟨s, hs1, hs2, hs3, hkeep, hpref⟩ := overlapPair_clean_spec defaultConfig
      (nthChunk (preOverlapChunks defaultConfig text docId filename) i)
      (nthChunk (preOverlapChunks defaultConfig text docId filename) (i + 1))
      (hcl _ (nthChunk_mem hiLt)) (hcl _ (nthChunk_mem hadj)) hlen
      (by decide) (by decide) (by decide)
    refine ⟨s, hs1, hs2, hs3, ?_, hpref⟩
    have hmem1 : overlapPair defaultConfig
        (nthChunk (preOverlapChunks defaultConfig text docId filename) i)
        (nthChunk (preOverlapChunks defaultConfig text docId filename) (i + 1)) ∈
        applyOverlap defaultConfig (preOverlapChunks defaultConfig text docId filename) := by
      rw [← applyOverlap_nth defaultConfig _ i hadj]
      apply nthChunk_mem
      rw [applyOverlap_length]
      omega
    have hct : chunkText defaultConfig text docId filename =
        validateAndCleanupChunks defaultConfig
          (applyOverlap defaultConfig (preOverlapChunks defaultConfig text docId filename)) := by
      rw [chunkText, chunkTextBody, handleChunkErrors]
    rw [hct]
    exact mem_validateAndCleanup hmem1 hkeep

set_option maxRecDepth 10000 in
/-- Witness: the amended overlap property applied to the `c3text`
document at the adjacent pre-overlap pair `(0, 1)`. -/
theorem C3_witness :
    (0 + 1 < (preOverlapChunks defaultConfig c3text 1 exFilename).length) ∧
    (defaultConfig.overlapSize ≤
      (nthChunk (preOverlapChunks defaultConfig c3text 1 exFilename) 0).text.length) ∧
    (∃ s : Str, s ≠ [] ∧
      SuffixOf s (nthChunk (preOverlapChunks defaultConfig c3text 1 exFilename) 0).text ∧
      s = dropWhileWs (getOverlapText
        (nthChunk (preOverlapChunks defaultConfig c3text 1 exFilename) 0).text
        defaultConfig.overlapSize) ∧
      cleanupChunk defaultConfig (overlapPair defaultConfig
          (nthChunk (preOverlapChunks defaultConfig c3text 1 exFilename) 0)
          (nthChunk (preOverlapChunks defaultConfig c3text 1 exFilename) (0 + 1)))
        ∈ chunkText defaultConfig c3text 1 exFilename ∧
      PrefixOf s (cleanupChunk defaultConfig (overlapPair defaultConfig
          (nthChunk (preOverlapChunks defaultConfig c3text 1 exFilename) 0)
          (nthChunk (preOverlapChunks defaultConfig c3text 1 exFilename) (0 + 1)))).text) :=
  ⟨by decide, by decide, C3_amended_overlap c3text 1 exFilename 0 (by decide) (by decide)⟩

end TutUni
